import Mathlib

/-!
Verification development for the apparun parameter-expression resolution
engine (`apparun/expressions.py`).

The definitions below are a shallow embedding of the Python source:
  * the hand-rolled grammar validator `validate_expr` with its regex
    token patterns, predecessor grammar, parenthesis balance and
    function allow-list check;
  * the tagged expression variants (`ParamFloatConst`, `ParamEnumConst`,
    `ParamFloatExpr`, `ParamEnumExpr`) with `parse`, `dependencies`,
    `raw_version`, `is_complex` and `evaluate`;
  * `ParamsValuesSet` with `build`, `dependencies_graph`,
    `dependencies_cycle` and `evaluate` (topological processing with
    one-hot flag injection);
  * `ImpactModelParamsValues.from_dict`, the batch resolver, embedded as
    the exact sequence of stages of the source function.

The parameter catalog (`ImpactModelParams`, class of `apparun/parameters.py`,
whose source is not part of the provided tree) is modelled from the spec
where noted.  Machine floats are modelled by `ℚ`; the sympy numeric
evaluator is an opaque parameter `evalf` of the development, and the
environment-derived function allow-list (`dir(math)+dir(numpy)+dir(sympy)`)
is a parameter `allowed`.
-/

/-- Numeric or string value, the scalar value domain of the engine
(Python float/int or str). -/
inductive Value where
  | num (q : ℚ)
  | str (s : String)
deriving DecidableEq, Repr

/-- Token kinds of the grammar validator, mirroring `tokens_patterns`
of `validate_expr` (whitespace included). -/
inductive TokTy where
  | funId | id | number | lParen | rParen | op | comma | ws
deriving DecidableEq, Repr

/-- Word character, Python regex `\w` (ASCII fragment). -/
def isWordChar (c : Char) : Bool := c.isAlphanum || c = '_'

/-- Identifier character, the pattern `[a-zA-Z_]`. -/
def isIdChar (c : Char) : Bool := c.isAlpha || c = '_'

/-- Whitespace of the Python regex class `\s` (ASCII fragment). -/
def isWS (c : Char) : Bool :=
  c = ' ' || c = '\t' || c = '\n' || c = '\x0d' || c = '\x0b' || c = '\x0c'

/-- Length of the maximal `\w+` run at the head of the input. -/
def wordRunLen (cs : List Char) : Nat := (cs.takeWhile isWordChar).length

/-- Matcher for `FUN_ID`, the anchored pattern `\w+\b(?=\()`: a nonempty
maximal word run immediately followed by an opening parenthesis (the
lookahead is not consumed).  Returns the number of consumed characters. -/
def funIdLen (cs : List Char) : Option Nat :=
  let n := wordRunLen cs
  if n = 0 then none
  else match (cs.drop n).head? with
    | some c => if c = '(' then some n else none
    | none => none

/-- Matcher for `ID`, the anchored pattern `[a-zA-Z_]+`. -/
def idLen (cs : List Char) : Option Nat :=
  let n := (cs.takeWhile isIdChar).length
  if n = 0 then none else some n

/-- Length of the maximal digit run at the head of the input. -/
def digitsLen (cs : List Char) : Nat := (cs.takeWhile Char.isDigit).length

/-- Matcher for `NUMBER`, the anchored pattern
`\-?\d+(\.\d+(e\-?\d+)?)?` with the greedy backtracking semantics of the
Python `re` engine: the optional fraction is taken only when digits
follow the dot, and the optional exponent only when digits follow. -/
def numberLen (cs : List Char) : Option Nat :=
  let neg : Nat := if cs.head? = some '-' then 1 else 0
  let cs1 := cs.drop neg
  let d := digitsLen cs1
  if d = 0 then none
  else
    let base := neg + d
    let rest := cs1.drop d
    if rest.head? = some '.' then
      let f := digitsLen (rest.drop 1)
      if f = 0 then some base
      else
        let base2 := base + 1 + f
        let rest2 := rest.drop (1 + f)
        if rest2.head? = some 'e' then
          let eneg : Nat := if (rest2.drop 1).head? = some '-' then 1 else 0
          let x := digitsLen (rest2.drop (1 + eneg))
          if x = 0 then some base2 else some (base2 + 1 + eneg + x)
        else some base2
    else some base

/-- Matcher for `OP`, the alternation
`\+|\-|\*{1,2}|/{1,2}|%|/|<=?|>=?|={2}` (first alternative wins, greedy
counted repetition). -/
def opLen (cs : List Char) : Option Nat :=
  match cs with
  | [] => none
  | c :: rest =>
    if c = '+' then some 1
    else if c = '-' then some 1
    else if c = '*' then (if rest.head? = some '*' then some 2 else some 1)
    else if c = '/' then (if rest.head? = some '/' then some 2 else some 1)
    else if c = '%' then some 1
    else if c = '<' then (if rest.head? = some '=' then some 2 else some 1)
    else if c = '>' then (if rest.head? = some '=' then some 2 else some 1)
    else if c = '=' then (if rest.head? = some '=' then some 2 else none)
    else none

/-- Matcher for a single expected character (`L_PAREN`, `R_PAREN`,
`COMMA`). -/
def charLen (c : Char) (cs : List Char) : Option Nat :=
  if cs.head? = some c then some 1 else none

/-- Matcher for `WS`, the pattern `\s+`. -/
def wsLen (cs : List Char) : Option Nat :=
  let n := (cs.takeWhile isWS).length
  if n = 0 then none else some n

/-- One step of the tokenizer: the token patterns are tried in the
order of the `tokens_patterns` dict of `validate_expr` and the first
match wins.  Returns the token kind and consumed length. -/
def lexOne (cs : List Char) : Option (TokTy × Nat) :=
  match funIdLen cs with
  | some n => some (.funId, n)
  | none =>
  match idLen cs with
  | some n => some (.id, n)
  | none =>
  match numberLen cs with
  | some n => some (.number, n)
  | none =>
  match charLen '(' cs with
  | some n => some (.lParen, n)
  | none =>
  match charLen ')' cs with
  | some n => some (.rParen, n)
  | none =>
  match opLen cs with
  | some n => some (.op, n)
  | none =>
  match charLen ',' cs with
  | some n => some (.comma, n)
  | none =>
  match wsLen cs with
  | some n => some (.ws, n)
  | none => none

theorem funIdLen_pos {cs : List Char} {n : Nat} (h : funIdLen cs = some n) : 0 < n := by
  unfold funIdLen at h
  simp only [] at h
  split at h
  · exact absurd h (by simp)
  · split at h
    · split at h
      · simp only [Option.some.injEq] at h
        omega
      · exact absurd h (by simp)
    · exact absurd h (by simp)

theorem idLen_pos {cs : List Char} {n : Nat} (h : idLen cs = some n) : 0 < n := by
  unfold idLen at h
  simp only [] at h
  split at h
  · exact absurd h (by simp)
  · simp only [Option.some.injEq] at h
    omega

theorem numberLen_pos {cs : List Char} {n : Nat} (h : numberLen cs = some n) : 0 < n := by
  unfold numberLen at h
  simp only [] at h
  repeat' split at h
  all_goals first
    | exact Option.noConfusion h
    | (injection h with h2; omega)

theorem opLen_pos {cs : List Char} {n : Nat} (h : opLen cs = some n) : 0 < n := by
  unfold opLen at h
  repeat' split at h
  all_goals first
    | exact Option.noConfusion h
    | (injection h with h2; omega)

theorem charLen_pos {c : Char} {cs : List Char} {n : Nat} (h : charLen c cs = some n) : 0 < n := by
  unfold charLen at h
  split at h
  · simp only [Option.some.injEq] at h; omega
  · exact absurd h (by simp)

theorem wsLen_pos {cs : List Char} {n : Nat} (h : wsLen cs = some n) : 0 < n := by
  unfold wsLen at h
  simp only [] at h
  split at h
  · exact absurd h (by simp)
  · simp only [Option.some.injEq] at h
    omega

theorem lexOne_pos {cs : List Char} {t : TokTy} {n : Nat}
    (h : lexOne cs = some (t, n)) : 0 < n := by
  unfold lexOne at h
  repeat' split at h
  all_goals first
    | exact Option.noConfusion h
    | (injection h with h2; injection h2 with ha hb; subst hb;
       first
        | exact funIdLen_pos (by assumption)
        | exact idLen_pos (by assumption)
        | exact numberLen_pos (by assumption)
        | exact charLen_pos (by assumption)
        | exact opLen_pos (by assumption)
        | exact wsLen_pos (by assumption))

theorem drop_length_lt {cs : List Char} {n : Nat} (hn : 0 < n) (hne : cs ≠ []) :
    (cs.drop n).length < cs.length := by
  have : 0 < cs.length := List.length_pos.mpr hne
  simp only [List.length_drop]
  omega

/-- Allowed immediate predecessors, the `tokens_predecessors` table of
`validate_expr`. -/
def allowedPred (t prev : TokTy) : Bool :=
  match t with
  | .id => prev = .op || prev = .lParen || prev = .comma
  | .funId => prev = .op || prev = .lParen || prev = .comma
  | .number => prev = .op || prev = .lParen || prev = .comma
  | .lParen => prev = .op || prev = .id || prev = .lParen || prev = .comma || prev = .funId
  | .rParen => prev = .number || prev = .id || prev = .rParen
  | .comma => prev = .number || prev = .id || prev = .rParen
  | .op => prev = .number || prev = .id || prev = .rParen
  | .ws => true

/-- Parenthesis balance contribution of a token. -/
def tokParens (t : TokTy) : Int :=
  match t with
  | .lParen => 1
  | .rParen => -1
  | _ => 0

/-- The tokenizing loop of `validate_expr`: checks the predecessor
grammar on non-whitespace tokens (whitespace is discarded and does not
change the previous token), tracks the parenthesis balance and stops as
soon as the input is invalid.  Returns the `valid` flag and the final
`nb_paren` counter.  The fuel argument only bounds the recursion (each
token consumes at least one character, so the character count is always
enough fuel); the fuel-exhaustion branch is unreachable from
`validate_expr`. -/
def validateLoop : Nat → List Char → Option TokTy → Int → Bool × Int
  | _, [], _, np => (true, np)
  | 0, _ :: _, _, np => (false, np)
  | fuel + 1, c :: cs, prev, np =>
    match lexOne (c :: cs) with
    | none => (false, np)
    | some (t, n) =>
      if t = .ws then validateLoop fuel ((c :: cs).drop n) prev np
      else
        let np' := np + tokParens t
        match prev with
        | some p =>
          if allowedPred t p then validateLoop fuel ((c :: cs).drop n) (some t) np'
          else (false, np')
        | none => validateLoop fuel ((c :: cs).drop n) (some t) np'

/-- Fuel-bounded scan for all non-overlapping occurrences of the
`FUN_ID` pattern, mirroring `re.findall(r"\w+\b(?=\()", expr)`: on a
match the matched characters are consumed (not the lookahead),
otherwise the scan advances one character. -/
def findFunIdsGo : Nat → List Char → List String
  | _, [] => []
  | 0, _ :: _ => []
  | fuel + 1, c :: cs =>
    match funIdLen (c :: cs) with
    | some n => ((c :: cs).take n).asString :: findFunIdsGo fuel ((c :: cs).drop n)
    | none => findFunIdsGo fuel cs

/-- All `FUN_ID` occurrences of a string, in source order. -/
def findFunIds (cs : List Char) : List String := findFunIdsGo cs.length cs

/-- Grammar validator `validate_expr` of `apparun/expressions.py`,
parameterized by the allow-list of function names (in the source the
environment-derived list `dir(math) + dir(numpy) + dir(sympy)`): the
tokenizing loop must succeed, the parenthesis balance must be zero, and
every `FUN_ID` occurrence must be allow-listed. -/
def validate_expr (allowed : List String) (expr : String) : Bool :=
  let r := validateLoop expr.toList.length expr.toList none 0
  let funNames := findFunIds expr.toList
  r.1 && r.2 == 0 && funNames.all (fun f => f ∈ allowed)

/-- Names the sympy parser resolves to builtin constants rather than
free symbols.  Models the behavior of the external sympy library used
by `ParamFloatExpr.dependencies` (`parse_expr(...).free_symbols`). -/
def sympyConstants : List String := ["pi", "E", "I", "oo", "zoo", "nan", "true", "false"]

/-- Fuel-bounded deduplication keeping the first occurrence of each
element, matching Python set/dict iteration built by insertion (the
recursion shrinks the list, so its length is always enough fuel). -/
def dedupFirstGo : Nat → List String → List String
  | _, [] => []
  | 0, _ :: _ => []
  | fuel + 1, a :: t => a :: dedupFirstGo fuel (t.filter (fun x => x ≠ a))

/-- Deduplication keeping the first occurrence of each element. -/
def dedupFirst (l : List String) : List String := dedupFirstGo l.length l

/-- Fuel-bounded collection of the identifier tokens of an expression
in source order, with the same tokenizer as the grammar validator (a
`FUN_ID` token is a function application, not a symbol). -/
def collectIdsGo : Nat → List Char → List String
  | _, [] => []
  | 0, _ :: _ => []
  | fuel + 1, c :: cs =>
    match lexOne (c :: cs) with
    | some (t, n) =>
      if t = .id then ((c :: cs).take n).asString :: collectIdsGo fuel ((c :: cs).drop n)
      else collectIdsGo fuel ((c :: cs).drop n)
    | none => collectIdsGo fuel cs

/-- Identifier tokens of an expression in source order. -/
def collectIds (cs : List Char) : List String := collectIdsGo cs.length cs

/-- Modelled from the spec: free symbol names of a float formula
(in the source `parse_expr(expr).free_symbols` via the external sympy
library): identifier tokens that are not function applications and not
sympy builtin constants, each name once. -/
def freeSymbols (s : String) : List String :=
  (dedupFirst (collectIds s.toList)).filter (fun x => x ∉ sympyConstants)

/-- Parameter kind of the catalog. -/
inductive ParamType where
  | float | enum
deriving DecidableEq, Repr

mutual

/-- Raw (unparsed) expression value, the wire shape accepted by
`ParamExpr.parse`: a number, a string, a nested enum-branch mapping
(association list of selector name to branch mappings), or null
(`None`). -/
inductive RawExpr where
  | num (q : ℚ)
  | str (s : String)
  | dict (entries : RawEntries)
  | null

/-- Association list of selector name to raw branch mapping (the outer
dict of a raw enum-branch expression, which may have any number of
keys before validation). -/
inductive RawEntries where
  | nil
  | cons (selector : String) (opts : RawOptions) (rest : RawEntries)

/-- Association list of option name to raw sub-expression (the inner
dict of a raw enum-branch expression). -/
inductive RawOptions where
  | nil
  | cons (option : String) (e : RawExpr) (rest : RawOptions)

end

/-- Keys of a raw branch mapping, in insertion order. -/
def RawOptions.keys : RawOptions → List String
  | .nil => []
  | .cons o _ rest => o :: rest.keys

/-- Branch names bound to a null raw value, in insertion order. -/
def RawOptions.nullKeys : RawOptions → List String
  | .nil => []
  | .cons o e rest =>
    match e with
    | .null => o :: rest.nullKeys
    | _ => rest.nullKeys

/-- Number of selectors of a raw enum-branch mapping (`len(expr.keys())`). -/
def RawEntries.length : RawEntries → Nat
  | .nil => 0
  | .cons _ _ rest => rest.length + 1

/-- Builds a raw branch mapping from an association list. -/
def RawOptions.ofList : List (String × RawExpr) → RawOptions
  | [] => .nil
  | (o, e) :: t => .cons o e (RawOptions.ofList t)

/-- Builds a raw enum-branch entry list from an association list. -/
def RawEntries.ofList : List (String × RawOptions) → RawEntries
  | [] => .nil
  | (s, o) :: t => .cons s o (RawEntries.ofList t)

/-- Structured content of one pydantic line error raised by the engine,
one constructor per `PydanticCustomError` type string of the source
(with the context fields the error carries). -/
inductive PErr where
  | floatExprErr
  | floatType
  | noSuchParam (ps : List String)
  | depsType (ps : List String) (required : String)
  | tooMuchDeps (required got : Nat)
  | enumExprOptions (missing extra : List String)
  | enumExprEmptyOptions (opts : List String)
  | targeted (target : String) (e : PErr)
  | emptyList (param : String)
  | listsSizeMatch
  | depsCycle (ps : List String)
  | valueErr (v : Value) (target : String) (expr : Option RawExpr)

/-- Exception channel of the embedding: `keyError` models a Python
`KeyError`/`IndexError` (never caught by the engine), `validation` a
pydantic `ValidationError` (the only kind `ParamsValuesSet.build`
catches), `valueError` a `ValueError` and `typeError` a `TypeError`. -/
inductive Failure where
  | keyError (key : String)
  | validation (errs : List PErr)
  | valueError (msg : String)
  | typeError (msg : String)

/-- Modelled from the spec: one catalog parameter (the class of
`apparun/parameters.py`, not part of the provided tree).  A parameter
has a unique name, a kind, a default raw value, optional float bounds
and, for enum parameters, an ordered option list. -/
structure ParamDef where
  name : String
  ptype : ParamType
  default : RawExpr
  options : List String := []
  pmin : Option ℚ := none
  pmax : Option ℚ := none

/-- Modelled from the spec: the parameter catalog `ImpactModelParams`,
an ordered collection of parameters with exact and fuzzy lookup. -/
structure ImpactModelParams where
  params : List ParamDef

/-- Exact-name lookup, `parameters[name]` of the catalog. -/
def ImpactModelParams.get? (cat : ImpactModelParams) (name : String) : Option ParamDef :=
  cat.params.find? (fun p => p.name = name)

/-- Parameter names, `parameters.names`. -/
def ImpactModelParams.names (cat : ImpactModelParams) : List String :=
  cat.params.map (·.name)

/-- Names of the enum-typed parameters of the catalog. -/
def ImpactModelParams.enumNames (cat : ImpactModelParams) : List String :=
  (cat.params.filter (fun p => p.ptype = .enum)).map (·.name)

/-- Modelled from the spec: whether a token corresponds to a parameter,
either exactly by name or as one of an enum parameter's derived one-hot
flags `{name}_{option}`. -/
def matchesToken (p : ParamDef) (tok : String) : Bool :=
  tok = p.name || (p.ptype = .enum && p.options.any (fun o => tok = p.name ++ "_" ++ o))

/-- Modelled from the spec: the fuzzy catalog lookup
`find_corresponding_parameter(token, must_find_one=True)`, failing with
a `ValueError` unless exactly one parameter matches the token. -/
def find_corresponding_parameter (cat : ImpactModelParams) (tok : String) :
    Except Failure ParamDef :=
  match cat.params.filter (fun p => matchesToken p tok) with
  | [p] => .ok p
  | _ => .error (.valueError "find_corresponding_parameter")

/-- Modelled from the spec: the one-hot expansion
`parameters[name].transform(value)` of an enum parameter: one derived
flag `{name}_{option}` per declared option, `1.0` on the chosen option
and `0.0` elsewhere. -/
def ParamDef.transform (p : ParamDef) (v : Value) : List (String × Value) :=
  p.options.map (fun o => (p.name ++ "_" ++ o, Value.num (if v = Value.str o then 1 else 0)))

mutual

/-- Parsed expression: the tagged union of `ParamFloatConst`,
`ParamEnumConst`, `ParamFloatExpr` and `ParamEnumExpr`. -/
inductive ParamExpr where
  | floatConst (value : ℚ)
  | enumConst (value : String)
  | floatExpr (expr : String)
  | enumExpr (param : String) (options : PEOptions)

/-- Association list of option name to parsed sub-expression (the
branch dict of a `ParamEnumExpr`). -/
inductive PEOptions where
  | nil
  | cons (option : String) (e : ParamExpr) (rest : PEOptions)

end

/-- Keys of a parsed branch mapping, in insertion order. -/
def PEOptions.keys : PEOptions → List String
  | .nil => []
  | .cons o _ rest => o :: rest.keys

/-- Dependency validation of `ParamFloatExpr.validate_dependencies`:
each free symbol must fuzzily resolve to exactly one parameter (else
`no_such_param`, via the caught `ValueError`) and must not be the raw
name of an enum parameter (else `dependencies_type`); the first
offending dependency aborts. -/
def depErrCheck (cat : ImpactModelParams) : List String → Option PErr
  | [] => none
  | dep :: rest =>
    match cat.params.filter (fun p => matchesToken p dep) with
    | [_] =>
      if dep ∈ cat.enumNames then some (.depsType [dep] "float or dummy")
      else depErrCheck cat rest
    | _ => some (.noSuchParam [dep])

/-- Lexicographic code-point comparison of two character lists, the
string ordering used by Python `sorted`. -/
def charListLe : List Char → List Char → Bool
  | [], _ => true
  | _ :: _, [] => false
  | a :: as, b :: bs =>
    if a.toNat < b.toNat then true
    else if b.toNat < a.toNat then false
    else charListLe as bs

/-- Lexicographic string comparison. -/
def strLe (a b : String) : Bool := charListLe a.toList b.toList

/-- Insertion step of `sortStr`. -/
def insertStr (a : String) : List String → List String
  | [] => [a]
  | b :: t => if strLe a b then a :: b :: t else b :: insertStr a t

/-- Insertion sort on strings, modelling Python `sorted`. -/
def sortStr (l : List String) : List String := l.foldr insertStr []

mutual

/-- Expression parser `ParamExpr.parse`: dispatch on the shape of the
raw value.  For a mapping the pydantic validator chain of
`ParamEnumExpr` runs in its execution order: `validate_param` (single
key, existing enum-typed selector), then `validate_options` (missing
options, then extra options, then null branches — each check raising
alone), then `parse_sub_exprs`. -/
def ParamExpr.parse (allowed : List String) :
    RawExpr → String → ImpactModelParams → Except Failure ParamExpr
  | .num q, _, _ => .ok (.floatConst q)
  | .null, _, _ => .error (.validation [.floatType])
  | .str s, param, cat =>
    match cat.get? param with
    | none => .error (.keyError param)
    | some p =>
      match p.ptype with
      | .enum => .ok (.enumConst s)
      | .float =>
        if validate_expr allowed s then
          match depErrCheck cat (freeSymbols s) with
          | some err => .error (.validation [err])
          | none => .ok (.floatExpr s)
        else .error (.validation [.floatExprErr])
  | .dict entries, param, cat =>
    match entries with
    | .cons dep opts .nil =>
      if dep ∈ cat.names then
        match cat.get? dep with
        | none => .error (.keyError dep)
        | some pd =>
          if pd.ptype = .enum then
            let supplied := opts.keys
            let missing := sortStr (dedupFirst (pd.options.filter (fun o => o ∉ supplied)))
            if missing ≠ [] then .error (.validation [.enumExprOptions missing []])
            else
              let extra := sortStr (dedupFirst (supplied.filter (fun o => o ∉ pd.options)))
              if extra ≠ [] then .error (.validation [.enumExprOptions [] extra])
              else
                let noneOpts := sortStr opts.nullKeys
                if noneOpts ≠ [] then .error (.validation [.enumExprEmptyOptions noneOpts])
                else
                  match parseOptions allowed opts param cat with
                  | .ok ps => .ok (.enumExpr dep ps)
                  | .error f => .error f
          else .error (.validation [.depsType [dep] "enum"])
      else .error (.validation [.noSuchParam [dep]])
    | es => .error (.validation [.tooMuchDeps 1 es.length])

/-- Sub-expression parsing of `ParamEnumExpr.parse_sub_exprs`: each
branch raw value is parsed with the original target parameter name; the
first failure aborts. -/
def parseOptions (allowed : List String) :
    RawOptions → String → ImpactModelParams → Except Failure PEOptions
  | .nil, _, _ => .ok .nil
  | .cons o e rest, param, cat =>
    match ParamExpr.parse allowed e param cat with
    | .error f => .error f
    | .ok pe =>
      match parseOptions allowed rest param cat with
      | .error f => .error f
      | .ok ps => .ok (.cons o pe ps)

end

/-- Association lookup in a running value dict (first match; keys are
unique, matching a Python dict). -/
def lookupVal (l : List (String × Value)) (k : String) : Option Value :=
  (l.find? (fun kv => kv.1 = k)).map (·.2)

mutual

/-- Expression evaluation `ParamExpr.evaluate`: constants return their
stored value, a float formula applies the opaque sympy evaluator
`evalf` to its text and the dependency values, and an enum branch looks
up the selector's resolved value (a missing or non-string value makes
the branch dictionary lookup a Python `KeyError`) and recursively
evaluates the matching branch. -/
def ParamExpr.evaluate (evalf : String → List (String × Value) → Value) :
    ParamExpr → List (String × Value) → Except Failure Value
  | .floatConst v, _ => .ok (.num v)
  | .enumConst s, _ => .ok (.str s)
  | .floatExpr s, deps => .ok (evalf s deps)
  | .enumExpr p opts, deps =>
    match lookupVal deps p with
    | some (.str s) => evalOptions evalf opts s deps
    | some (.num _) => .error (.keyError p)
    | none => .error (.keyError p)

/-- Branch dictionary lookup (`self.options[...]`) with recursive
evaluation of the selected branch. -/
def evalOptions (evalf : String → List (String × Value) → Value) :
    PEOptions → String → List (String × Value) → Except Failure Value
  | .nil, s, _ => .error (.keyError s)
  | .cons o e rest, s, deps =>
    if o = s then ParamExpr.evaluate evalf e deps else evalOptions evalf rest s deps

end

mutual

/-- Dependencies of an expression: constants have none, a float formula
its free symbols, an enum branch its selector together with every
branch's dependencies. -/
def ParamExpr.dependencies : ParamExpr → List String
  | .floatConst _ => []
  | .enumConst _ => []
  | .floatExpr s => freeSymbols s
  | .enumExpr p opts => p :: depsOptions opts

/-- Dependencies of the branches of an enum expression. -/
def depsOptions : PEOptions → List String
  | .nil => []
  | .cons _ e rest => e.dependencies ++ depsOptions rest

end

mutual

/-- Raw version of an expression (`raw_version`): the original
literal/string/nested-mapping form. -/
def ParamExpr.raw_version : ParamExpr → RawExpr
  | .floatConst v => .num v
  | .enumConst s => .str s
  | .floatExpr s => .str s
  | .enumExpr p opts => .dict (.cons p (rawOptions opts) .nil)

/-- Raw versions of the branches of an enum expression. -/
def rawOptions : PEOptions → RawOptions
  | .nil => .nil
  | .cons o e rest => .cons o e.raw_version (rawOptions rest)

end

/-- Complexity flag `is_complex`, selecting the diagnostic wording of
later warnings and errors. -/
def ParamExpr.is_complex : ParamExpr → Bool
  | .floatConst _ => false
  | .enumConst _ => false
  | .floatExpr _ => true
  | .enumExpr _ _ => true

/-- Expression set of one scenario: one parsed expression per
parameter, with the catalog (`ParamsValuesSet`). -/
structure ParamsValuesSet where
  expressions : List (String × ParamExpr)
  parameters : ImpactModelParams

/-- Loop of `ParamsValuesSet.build`: parses each raw expression in
order, keeps the successfully parsed entries, and collects every
validation error wrapped with the target parameter; any exception other
than a `ValidationError` propagates immediately. -/
def buildGo (allowed : List String) (parameters : ImpactModelParams) :
    List (String × RawExpr) → List (String × ParamExpr) → List PErr →
    Except Failure ParamsValuesSet
  | [], parsed, errs =>
    match errs with
    | [] => .ok ⟨parsed, parameters⟩
    | _ => .error (.validation errs)
  | (name, raw) :: rest, parsed, errs =>
    match ParamExpr.parse allowed raw name parameters with
    | .ok e => buildGo allowed parameters rest (parsed ++ [(name, e)]) errs
    | .error (.validation es) =>
      buildGo allowed parameters rest parsed (errs ++ es.map (fun e => .targeted name e))
    | .error f => .error f

/-- Builder `ParamsValuesSet.build`: parses all the expressions of one
scenario, aggregating its parse failures into one combined error. -/
def ParamsValuesSet.build (allowed : List String) (expressions : List (String × RawExpr))
    (parameters : ImpactModelParams) : Except Failure ParamsValuesSet :=
  buildGo allowed parameters expressions [] []

/-- Directed graph as an edge list, modelling the `nx.DiGraph` built
from the normalized dependency pairs. -/
structure DepGraph where
  edges : List (String × String)
deriving DecidableEq

/-- Node list in insertion order (each edge inserts its source, then
its target), as `nx.DiGraph` does. -/
def DepGraph.nodes (g : DepGraph) : List String :=
  dedupFirst (g.edges.flatMap (fun e => [e.1, e.2]))

/-- Successors of a node. -/
def DepGraph.step (g : DepGraph) (a : String) : List String :=
  (g.edges.filter (fun e => e.1 = a)).map (·.2)

/-- Depth-limited search for a walk with at least one edge from `a` to
`b`, returned as its edge list.  Models the cycle search of
`nx.find_cycle`. -/
def findPath (g : DepGraph) : Nat → String → String → Option (List (String × String))
  | 0, _, _ => none
  | fuel+1, a, b =>
    if b ∈ g.step a then some [(a, b)]
    else (g.step a).findSome? (fun c => (findPath g fuel c b).map (fun p => (a, c) :: p))

/-- Cycle search modelling `nx.find_cycle`: the edge list of some cycle
of the graph, or `none` when the graph is acyclic. -/
def findCycleEdges (g : DepGraph) : Option (List (String × String)) :=
  g.nodes.findSome? (fun v => findPath g g.nodes.length v v)

/-- Whether `v` has no incoming edge from the remaining node set. -/
def noIncoming (edges : List (String × String)) (R : List String) (v : String) : Bool :=
  !(edges.any (fun e => decide (e.2 = v ∧ e.1 ∈ R)))

/-- Fuel-bounded Kahn's algorithm, modelling `nx.topological_sort`:
repeatedly output every remaining node without an incoming edge from
the remaining set; `none` when stuck on a cycle. -/
def kahnAux (edges : List (String × String)) : Nat → List String → Option (List String)
  | 0, R => if R.isEmpty then some [] else none
  | fuel+1, R =>
    if R.isEmpty then some []
    else
      let zs := R.filter (noIncoming edges R)
      if zs.isEmpty then none
      else (kahnAux edges fuel (R.filter (fun v => v ∉ zs))).map (fun rest => zs ++ rest)

/-- Topological sort of a graph (`nx.topological_sort`). -/
def kahn (g : DepGraph) : Option (List String) :=
  kahnAux g.edges g.nodes.length g.nodes

/-- Sequential fallible map, the monadic `mapM` over `Except`. -/
def mapE {α β : Type} (f : α → Except Failure β) : List α → Except Failure (List β)
  | [] => .ok []
  | a :: t =>
    match f a with
    | .error e => .error e
    | .ok b =>
      match mapE f t with
      | .error e => .error e
      | .ok bs => .ok (b :: bs)

/-- Normalization of one raw dependency edge through the catalog's
fuzzy lookup. -/
def normEdge (cat : ImpactModelParams) (e : String × String) :
    Except Failure (String × String) :=
  match find_corresponding_parameter cat e.1 with
  | .error f => .error f
  | .ok pa =>
    match find_corresponding_parameter cat e.2 with
    | .error f => .error f
    | .ok pb => .ok (pa.name, pb.name)

/-- Raw dependency pairs of an expression set, one per (parameter,
dependency) combination. -/
def rawEdges (es : ParamsValuesSet) : List (String × String) :=
  es.expressions.flatMap (fun ne => ne.2.dependencies.map (fun d => (ne.1, d)))

/-- Dependency graph of an expression set
(`ParamsValuesSet.dependencies_graph`): one edge per (parameter,
dependency) pair, both endpoints normalized through the catalog's fuzzy
lookup, whose failure propagates as a `ValueError`. -/
def ParamsValuesSet.dependencies_graph (es : ParamsValuesSet) : Except Failure DepGraph :=
  match mapE (normEdge es.parameters) (rawEdges es) with
  | .error f => .error f
  | .ok normed => .ok ⟨normed⟩

/-- Cycle detection `ParamsValuesSet.dependencies_cycle`: the sources
of the edges of a found cycle, or `[]` when the graph is acyclic. -/
def ParamsValuesSet.dependencies_cycle (es : ParamsValuesSet) : Except Failure (List String) :=
  match es.dependencies_graph with
  | .error f => .error f
  | .ok g =>
    match findCycleEdges g with
    | some ces => .ok (ces.map (·.1))
    | none => .ok []

/-- Dict assignment `values[k] = v`: overwrite an existing key in
place, or append a new one. -/
def dictSet (l : List (String × Value)) (k : String) (v : Value) : List (String × Value) :=
  if l.any (fun kv => kv.1 = k) then
    l.map (fun kv => if kv.1 = k then (k, v) else kv)
  else l ++ [(k, v)]

/-- Helper turning a failed optional lookup into the corresponding
raised exception. -/
def ofOption : Option α → Failure → Except Failure α
  | some a, _ => .ok a
  | none, f => .error f

/-- One iteration of the evaluation loop of `ParamsValuesSet.evaluate`
for one name: look up its expression (`self.expressions[name]`),
evaluate it on the already-computed values of its dependencies, store
the result under the name, and for an enum-typed parameter
(`self.parameters[name]`) inject its one-hot flag values. -/
def evalStep (evalf : String → List (String × Value) → Value) (es : ParamsValuesSet)
    (name : String) (vals : List (String × Value)) :
    Except Failure (List (String × Value)) :=
  match (es.expressions.find? (fun ne => ne.1 = name)).map (·.2) with
  | none => .error (.keyError name)
  | some expr =>
    match expr.evaluate evalf (vals.filter (fun kv => kv.1 ∈ expr.dependencies)) with
    | .error f => .error f
    | .ok v =>
      match es.parameters.get? name with
      | none => .error (.keyError name)
      | some pd =>
        .ok (if pd.ptype = .enum then
              (pd.transform v).foldl (fun a kv => dictSet a kv.1 kv.2) (dictSet vals name v)
            else dictSet vals name v)

/-- Evaluation loop of `ParamsValuesSet.evaluate` over the reversed
processing order. -/
def evalLoop (evalf : String → List (String × Value) → Value) (es : ParamsValuesSet) :
    List String → List (String × Value) → Except Failure (List (String × Value))
  | [], vals => .ok vals
  | name :: rest, vals =>
    match evalStep evalf es name vals with
    | .error f => .error f
    | .ok vals2 => evalLoop evalf es rest vals2

/-- Evaluation `ParamsValuesSet.evaluate`: raises on a dependency
cycle, topologically sorts the dependency graph, appends the parameters
absent from the graph, and processes the reversed order. -/
def ParamsValuesSet.evaluate (evalf : String → List (String × Value) → Value)
    (es : ParamsValuesSet) : Except Failure (List (String × Value)) :=
  match es.dependencies_cycle with
  | .error f => .error f
  | .ok (_ :: _) => .error (.valueError "dependency cycle")
  | .ok [] =>
    match es.dependencies_graph with
    | .error f => .error f
    | .ok g =>
      match kahn g with
      | none => .error (.valueError "not a DAG")
      | some topo =>
        evalLoop evalf es
          (topo ++ (es.expressions.map (·.1)).filter (fun k => k ∉ topo)).reverse []

/-- Raw batch value accepted by the batch resolver: a scalar raw
expression or a sequence of raw expressions. -/
inductive RawBatch where
  | scalar (e : RawExpr)
  | list (l : List RawExpr)

/-- Step 1 of `ImpactModelParamsValues.from_dict`: complete the input
with catalog defaults for absent parameters, reject empty supplied
sequences (aggregated over all offenders) then mismatched sequence
lengths, compute the batch size, and broadcast every scalar to a list
of that size. -/
def broadcastStage (parameters : ImpactModelParams) (values : List (String × RawBatch)) :
    Except Failure (Nat × List (String × List RawExpr)) :=
  let allValues := values ++
    ((parameters.params.filter (fun p => !(values.any (fun nv => nv.1 = p.name)))).map
      (fun p => (p.name, RawBatch.scalar p.default)))
  let empties := values.filterMap (fun nv =>
    match nv.2 with
    | .list [] => some nv.1
    | _ => none)
  match empties with
  | _ :: _ => .error (.validation (empties.map (fun n => .emptyList n)))
  | [] =>
    let lists := values.filterMap (fun nv =>
      match nv.2 with
      | .list l => some l
      | _ => none)
    if lists.any (fun l => l.length ≠ (lists.headD []).length) then
      .error (.validation [.listsSizeMatch])
    else
      let size := if lists.isEmpty then 1 else (lists.map List.length).foldl max 0
      .ok (size, allValues.map (fun nv =>
        (nv.1, match nv.2 with
               | .list l => l
               | .scalar s => List.replicate size s)))

/-- The index list `range(n)` starting at `s`. -/
def countUp (s : Nat) : Nat → List Nat
  | 0 => []
  | n+1 => s :: countUp (s+1) n

/-- Per-index raw expressions, `{name: value[idx] for name, value in
list_values.items()}`. -/
def valuesAt (lv : List (String × List RawExpr)) (idx : Nat) :
    Except Failure (List (String × RawExpr)) :=
  mapE (fun nl =>
    match nl.2.get? idx with
    | some v => .ok (nl.1, v)
    | none => .error (.keyError nl.1)) lv

/-- Loop of step 2 of `from_dict` over the batch indices: build one
expression set per index, in order; the first failing build aborts. -/
def buildStageAux (allowed : List String) (parameters : ImpactModelParams)
    (lv : List (String × List RawExpr)) : List Nat → Except Failure (List ParamsValuesSet)
  | [] => .ok []
  | i :: rest =>
    match valuesAt lv i with
    | .error f => .error f
    | .ok vs =>
      match ParamsValuesSet.build allowed vs parameters with
      | .error f => .error f
      | .ok s =>
        match buildStageAux allowed parameters lv rest with
        | .error f => .error f
        | .ok ss => .ok (s :: ss)

/-- Step 2 of `from_dict`: one expression set per batch index. -/
def buildStage (allowed : List String) (parameters : ImpactModelParams)
    (lv : List (String × List RawExpr)) (size : Nat) : Except Failure (List ParamsValuesSet) :=
  buildStageAux allowed parameters lv (countUp 0 size)

/-- Step 3 of `from_dict`: dependency-cycle detection per index; the
first index with a non-empty cycle raises a `dependencies_cycle` error
naming the sorted cyclic parameters. -/
def cycleStage : List ParamsValuesSet → Except Failure Unit
  | [] => .ok ()
  | s :: rest =>
    match s.dependencies_cycle with
    | .error f => .error f
    | .ok (c :: cs) => .error (.validation [.depsCycle (sortStr (c :: cs))])
    | .ok [] => cycleStage rest

/-- Dict-of-lists append `final_values[name].append(value)` on a
`defaultdict(list)`. -/
def dictAppend (l : List (String × List Value)) (k : String) (v : Value) :
    List (String × List Value) :=
  if l.any (fun kv => kv.1 = k) then
    l.map (fun kv => if kv.1 = k then (kv.1, kv.2 ++ [v]) else kv)
  else l ++ [(k, [v])]

/-- Step 4 of `from_dict`: evaluate every expression set in order and
append each resolved value to its parameter's value list, discarding
resolved names absent from the catalog (the injected one-hot flags). -/
def evalStage (evalf : String → List (String × Value) → Value)
    (parameters : ImpactModelParams) :
    List ParamsValuesSet → List (String × List Value) →
    Except Failure (List (String × List Value))
  | [], acc => .ok acc
  | s :: rest, acc =>
    match s.evaluate evalf with
    | .error f => .error f
    | .ok evals =>
      evalStage evalf parameters rest
        (evals.foldl
          (fun a nv => if nv.1 ∈ parameters.names then dictAppend a nv.1 nv.2 else a) acc)

/-- Non-fatal warnings of the final validation step, emitted through
the logger in the source. -/
inductive Warning where
  | noBounds (param : String)
  | outOfBounds (v : Value) (param : String)
  | outOfBoundsComplex (v : Value) (param : String) (expr : RawExpr)

/-- Numeric content of a value; comparing a non-numeric value with a
float bound is a Python `TypeError`. -/
def qOf : Value → Except Failure ℚ
  | .num q => .ok q
  | .str _ => .error (.typeError "comparison")

/-- Originating expression lookup `exprs_sets[idx][name]` (an absent
index or name is a Python exception). -/
def getExpr (sets : List ParamsValuesSet) (idx : Nat) (name : String) :
    Except Failure ParamExpr :=
  match sets.get? idx with
  | none => .error (.keyError "index")
  | some s =>
    match (s.expressions.find? (fun ne => ne.1 = name)).map (·.2) with
    | none => .error (.keyError name)
    | some e => .ok e

/-- Validation of one final value (one parameter at one batch index):
a float parameter with undeclared bounds gives an advisory warning and
an out-of-bounds float value a non-fatal warning (wording by origin
complexity); an enum value outside the declared options is a fatal
error (wording by origin complexity). -/
def checkOne (parameters : ImpactModelParams) (sets : List ParamsValuesSet)
    (name : String) (idx : Nat) (elem : Value) : Except Failure (List PErr × List Warning) :=
  match parameters.get? name with
  | none => .error (.keyError name)
  | some pd =>
    match pd.ptype with
    | .float =>
      match pd.pmin, pd.pmax with
      | some mn, some mx =>
        match qOf elem with
        | .error f => .error f
        | .ok q =>
          if q < mn ∨ mx < q then
            match getExpr sets idx name with
            | .error f => .error f
            | .ok ex =>
              if ex.is_complex then .ok ([], [.outOfBoundsComplex elem name ex.raw_version])
              else .ok ([], [.outOfBounds elem name])
          else .ok ([], [])
      | _, _ => .ok ([], [.noBounds name])
    | .enum =>
      match elem with
      | .str s =>
        if s ∈ pd.options then .ok ([], [])
        else
          match getExpr sets idx name with
          | .error f => .error f
          | .ok ex =>
            if ex.is_complex then .ok ([.valueErr elem name (some ex.raw_version)], [])
            else .ok ([.valueErr elem name none], [])
      | .num _ =>
        match getExpr sets idx name with
        | .error f => .error f
        | .ok ex =>
          if ex.is_complex then .ok ([.valueErr elem name (some ex.raw_version)], [])
          else .ok ([.valueErr elem name none], [])

/-- Per-value validation over one parameter's enumerated value list. -/
def checkValues (parameters : ImpactModelParams) (sets : List ParamsValuesSet)
    (name : String) : List (Nat × Value) → Except Failure (List PErr × List Warning)
  | [] => .ok ([], [])
  | (idx, elem) :: rest =>
    match checkOne parameters sets name idx elem with
    | .error f => .error f
    | .ok (e1, w1) =>
      match checkValues parameters sets name rest with
      | .error f => .error f
      | .ok (er, wr) => .ok (e1 ++ er, w1 ++ wr)

/-- Step 5 of `from_dict`: validate every final value, collecting the
fatal errors and warnings of all parameters and indices. -/
def validateStage (parameters : ImpactModelParams) (sets : List ParamsValuesSet) :
    List (String × List Value) → Except Failure (List PErr × List Warning)
  | [] => .ok ([], [])
  | (name, vl) :: rest =>
    match checkValues parameters sets name vl.enum with
    | .error f => .error f
    | .ok (e1, w1) =>
      match validateStage parameters sets rest with
      | .error f => .error f
      | .ok (er, wr) => .ok (e1 ++ er, w1 ++ wr)

/-- Batch resolver `ImpactModelParamsValues.from_dict`: the five stages
of the source function in order; the fatal errors of the final
validation are raised together. -/
def ImpactModelParamsValues.from_dict (allowed : List String)
    (evalf : String → List (String × Value) → Value)
    (parameters : ImpactModelParams) (values : List (String × RawBatch)) :
    Except Failure (List (String × List Value)) :=
  match broadcastStage parameters values with
  | .error f => .error f
  | .ok (size, listValues) =>
    match buildStage allowed parameters listValues size with
    | .error f => .error f
    | .ok sets =>
      match cycleStage sets with
      | .error f => .error f
      | .ok _ =>
        match evalStage evalf parameters sets [] with
        | .error f => .error f
        | .ok final =>
          match validateStage parameters sets final with
          | .error f => .error f
          | .ok (errs, _) =>
            match errs with
            | _ :: _ => .error (.validation errs)
            | [] => .ok final

/-- Walk step relation of a graph: two consecutive nodes are joined by
an edge. -/
def edgeRel (edges : List (String × String)) (a b : String) : Prop := (a, b) ∈ edges

/-- A closed walk with at least one edge. -/
def IsClosedWalk (edges : List (String × String)) (l : List String) : Prop :=
  List.Chain' (edgeRel edges) l ∧ 2 ≤ l.length ∧ l.head? = l.getLast?

/-- A graph has a cycle when some closed walk with at least one edge
exists. -/
def DepGraph.HasCycle (g : DepGraph) : Prop := ∃ l, IsClosedWalk g.edges l

theorem mem_dedupFirstGo :
    ∀ (fuel : Nat) (l : List String), l.length ≤ fuel →
      ∀ a, (a ∈ dedupFirstGo fuel l ↔ a ∈ l) := by
  intro fuel
  induction fuel with
  | zero =>
    intro l hl a
    cases l with
    | nil => simp [dedupFirstGo]
    | cons b t => simp at hl
  | succ f ih =>
    intro l hl a
    cases l with
    | nil => simp [dedupFirstGo]
    | cons b t =>
      rw [dedupFirstGo]
      have hlen : (t.filter (fun x => x ≠ b)).length ≤ f := by
        have := List.length_filter_le (fun x => decide (x ≠ b)) t
        simp only [List.length_cons] at hl
        omega
      by_cases hab : a = b
      · subst hab
        simp
      · simp only [List.mem_cons, ih _ hlen, List.mem_filter]
        constructor
        · rintro (rfl | ⟨h, _⟩)
          · exact absurd rfl hab
          · exact Or.inr h
        · rintro (rfl | h)
          · exact absurd rfl hab
          · exact Or.inr ⟨h, by simpa using hab⟩

theorem mem_dedupFirst : ∀ (l : List String) (a : String), a ∈ dedupFirst l ↔ a ∈ l :=
  fun l a => mem_dedupFirstGo l.length l le_rfl a

theorem mem_nodes_of_edge {g : DepGraph} {a b : String} (h : (a, b) ∈ g.edges) :
    a ∈ g.nodes ∧ b ∈ g.nodes := by
  constructor <;>
  · rw [DepGraph.nodes, mem_dedupFirst]
    refine List.mem_flatMap.mpr ⟨(a, b), h, ?_⟩
    simp

theorem chain_mem_nodes {g : DepGraph} :
    ∀ {l : List String}, List.Chain' (edgeRel g.edges) l → 2 ≤ l.length →
      ∀ x ∈ l, x ∈ g.nodes := by
  intro l
  induction l with
  | nil => simp
  | cons a t ih =>
    intro hc hlen x hx
    cases t with
    | nil => simp at hlen
    | cons b t2 =>
      have h1 : edgeRel g.edges a b := (List.chain'_cons.mp hc).1
      have h2 := (List.chain'_cons.mp hc).2
      rcases List.mem_cons.mp hx with rfl | hx2
      · exact (mem_nodes_of_edge h1).1
      · cases t2 with
        | nil =>
          have hxb : x = b := by simpa using hx2
          exact hxb ▸ (mem_nodes_of_edge h1).2
        | cons c t3 => exact ih h2 (by simp) x hx2

theorem not_nodup_of_long {l cand : List String} (hsub : ∀ x ∈ l, x ∈ cand)
    (hlen : cand.length < l.length) : ¬ l.Nodup :=
  fun hnd => absurd (hnd.subperm hsub).length_le (by omega)

theorem exists_dup_split {l : List String} (h : ¬ l.Nodup) :
    ∃ a l1 l2 l3, l = l1 ++ a :: l2 ++ a :: l3 := by
  induction l with
  | nil => exact absurd List.nodup_nil h
  | cons b t ih =>
    by_cases hb : b ∈ t
    · obtain ⟨s, u, rfl⟩ := List.append_of_mem hb
      exact ⟨b, [], s, u, by simp⟩
    · have hnt : ¬ t.Nodup := fun hnd => h (List.nodup_cons.mpr ⟨hb, hnd⟩)
      obtain ⟨a, l1, l2, l3, rfl⟩ := ih hnt
      exact ⟨a, b :: l1, l2, l3, rfl⟩

theorem closed_walk_shrink {g : DepGraph} (h : g.HasCycle) :
    ∃ a l, IsClosedWalk g.edges l ∧ l.head? = some a ∧ a ∈ g.nodes ∧
      l.length ≤ g.nodes.length + 1 := by
  obtain ⟨c, hchain, hlen, hcl⟩ := h
  by_cases hsh : c.length ≤ g.nodes.length + 1
  · obtain ⟨a, c', rfl⟩ : ∃ a c', c = a :: c' := by
      cases c with
      | nil => simp at hlen
      | cons a c' => exact ⟨a, c', rfl⟩
    exact ⟨a, a :: c', ⟨hchain, hlen, hcl⟩, rfl,
      chain_mem_nodes hchain hlen a (by simp), hsh⟩
  · have hplen : (c.take (g.nodes.length + 1)).length = g.nodes.length + 1 := by
      simp only [List.length_take]
      omega
    have hmem : ∀ x ∈ c.take (g.nodes.length + 1), x ∈ g.nodes :=
      fun x hx => chain_mem_nodes hchain hlen x (List.mem_of_mem_take hx)
    have hnd := not_nodup_of_long hmem (by omega)
    obtain ⟨a, p1, p2, p3, hsplit⟩ := exists_dup_split hnd
    have hc_split : c = p1 ++ ((a :: p2) ++ [a]) ++ (p3 ++ c.drop (g.nodes.length + 1)) := by
      conv_lhs => rw [← List.take_append_drop (g.nodes.length + 1) c]
      rw [hsplit]
      simp
    refine ⟨a, (a :: p2) ++ [a], ⟨?_, by simp, ?_⟩, by simp, ?_, ?_⟩
    · exact hchain.infix ⟨p1, p3 ++ c.drop (g.nodes.length + 1), hc_split.symm⟩
    · rw [List.getLast?_concat]
      simp
    · refine hmem a ?_
      rw [hsplit]
      simp
    · have := congrArg List.length hsplit
      simp only [List.length_append, List.length_cons, List.length_nil, hplen] at this
      simp only [List.length_append, List.length_cons, List.length_nil]
      omega

theorem step_mem {g : DepGraph} {a b : String} : b ∈ g.step a ↔ (a, b) ∈ g.edges := by
  simp only [DepGraph.step, List.mem_map, List.mem_filter, decide_eq_true_eq]
  constructor
  · rintro ⟨e, ⟨he, hfa⟩, rfl⟩
    cases e
    simp only at hfa
    subst hfa
    exact he
  · intro h
    exact ⟨(a, b), ⟨h, rfl⟩, rfl⟩

theorem findPath_sound {g : DepGraph} :
    ∀ (fuel : Nat) (a b : String) (es : List (String × String)),
      findPath g fuel a b = some es →
      es ≠ [] ∧ List.Chain' (edgeRel g.edges) (a :: es.map (·.2)) ∧
        (a :: es.map (·.2)).getLast? = some b := by
  intro fuel
  induction fuel with
  | zero => intro a b es h; exact absurd h (by simp [findPath])
  | succ f ih =>
    intro a b es h
    unfold findPath at h
    split at h
    · injection h with h'
      subst h'
      refine ⟨by simp, ?_, by simp⟩
      simp only [List.map_cons, List.map_nil]
      exact List.chain'_pair.mpr (step_mem.mp (by assumption))
    · obtain ⟨c, hc, hfc⟩ := List.exists_of_findSome?_eq_some h
      obtain ⟨p, hp, rfl⟩ := Option.map_eq_some'.mp hfc
      obtain ⟨hne, hchain, hlast⟩ := ih c b p hp
      refine ⟨by simp, ?_, ?_⟩
      · simp only [List.map_cons]
        exact List.chain'_cons.mpr ⟨step_mem.mp hc, hchain⟩
      · simp only [List.map_cons]
        rw [List.getLast?_cons_cons]
        exact hlast

theorem findSome?_isSome_of {α β : Type} {l : List α} {f : α → Option β} {x : α}
    (hx : x ∈ l) (hf : (f x).isSome) : (l.findSome? f).isSome := by
  cases h : l.findSome? f
  · rw [List.findSome?_eq_none_iff.mp h x hx] at hf
    exact absurd hf (by simp)
  · simp

theorem findPath_complete {g : DepGraph} :
    ∀ (fuel : Nat) (l : List String) (a b : String),
      List.Chain' (edgeRel g.edges) l → l.head? = some a → l.getLast? = some b →
      2 ≤ l.length → l.length ≤ fuel + 1 → (findPath g fuel a b).isSome := by
  intro fuel
  induction fuel with
  | zero =>
    intro l a b _ _ _ h2 h1
    omega
  | succ f ih =>
    intro l a b hc hh hl h2 hb
    obtain ⟨a', l', rfl⟩ : ∃ a' l', l = a' :: l' := by
      cases l with
      | nil => simp at hh
      | cons a' l' => exact ⟨a', l', rfl⟩
    have haa : a' = a := by simpa using hh
    subst a'
    obtain ⟨x, t, rfl⟩ : ∃ x t, l' = x :: t := by
      cases l' with
      | nil => simp at h2
      | cons x t => exact ⟨x, t, rfl⟩
    have hax : edgeRel g.edges a x := (List.chain'_cons.mp hc).1
    have hct : List.Chain' (edgeRel g.edges) (x :: t) := (List.chain'_cons.mp hc).2
    unfold findPath
    by_cases hbs : b ∈ g.step a
    · simp [hbs]
    · simp only [hbs, if_false]
      cases t with
      | nil =>
        have hxb : x = b := by simpa using hl
        subst hxb
        exact absurd (step_mem.mpr hax) hbs
      | cons y t2 =>
        have hrec := ih (x :: y :: t2) x b hct rfl (by simpa using hl) (by simp)
          (by simp at hb ⊢; omega)
        refine findSome?_isSome_of (step_mem.mpr hax) ?_
        simp only [Option.isSome_map']
        exact hrec

theorem findCycleEdges_sound {g : DepGraph} {es : List (String × String)}
    (h : findCycleEdges g = some es) : g.HasCycle ∧ es ≠ [] := by
  obtain ⟨v, hv, hfp⟩ := List.exists_of_findSome?_eq_some h
  obtain ⟨hne, hchain, hlast⟩ := findPath_sound g.nodes.length v v es hfp
  refine ⟨⟨v :: es.map (·.2), hchain, ?_, ?_⟩, hne⟩
  · simp only [List.length_cons, List.length_map]
    cases es with
    | nil => exact absurd rfl hne
    | cons e es' => simp
  · rw [hlast]
    simp

theorem findCycleEdges_complete {g : DepGraph} (h : g.HasCycle) :
    (findCycleEdges g).isSome := by
  obtain ⟨a, l, ⟨hchain, hlen, hcl⟩, hh, hmem, hb⟩ := closed_walk_shrink h
  refine findSome?_isSome_of hmem ?_
  exact findPath_complete g.nodes.length l a a hchain hh (hcl ▸ hh) hlen (by omega)

theorem dedupFirstGo_nodup :
    ∀ (fuel : Nat) (l : List String), l.length ≤ fuel → (dedupFirstGo fuel l).Nodup := by
  intro fuel
  induction fuel with
  | zero =>
    intro l hl
    cases l with
    | nil => simp [dedupFirstGo]
    | cons b t => simp at hl
  | succ f ih =>
    intro l hl
    cases l with
    | nil => simp [dedupFirstGo]
    | cons b t =>
      rw [dedupFirstGo]
      have hlen : (t.filter (fun x => x ≠ b)).length ≤ f := by
        have := List.length_filter_le (fun x => decide (x ≠ b)) t
        simp only [List.length_cons] at hl
        omega
      refine List.nodup_cons.mpr ⟨?_, ih _ hlen⟩
      intro hmem
      have := (mem_dedupFirstGo f _ hlen b).mp hmem
      simp at this

theorem dedupFirst_nodup : ∀ (l : List String), (dedupFirst l).Nodup :=
  fun l => dedupFirstGo_nodup l.length l le_rfl

theorem kahnAux_mem {edges : List (String × String)} :
    ∀ {fuel : Nat} {R ord : List String}, kahnAux edges fuel R = some ord →
      ∀ x, x ∈ ord ↔ x ∈ R := by
  intro fuel
  induction fuel with
  | zero =>
    intro R ord h x
    unfold kahnAux at h
    split at h
    · injection h with h'
      subst h'
      rename_i hemp
      rw [List.isEmpty_iff] at hemp
      subst hemp
      rfl
    · exact absurd h (by simp)
  | succ f ih =>
    intro R ord h x
    unfold kahnAux at h
    split at h
    · injection h with h'
      subst h'
      rename_i hemp
      rw [List.isEmpty_iff] at hemp
      subst hemp
      rfl
    · simp only [] at h
      split at h
      · exact absurd h (by simp)
      · obtain ⟨rest, hrest, rfl⟩ := Option.map_eq_some'.mp h
        have hx := ih hrest x
        constructor
        · intro hxo
          rcases List.mem_append.mp hxo with hz | hr
          · exact List.mem_of_mem_filter hz
          · exact List.mem_of_mem_filter (hx.mp hr)
        · intro hxR
          by_cases hxz : x ∈ R.filter (noIncoming edges R)
          · exact List.mem_append.mpr (Or.inl hxz)
          · refine List.mem_append.mpr (Or.inr (hx.mpr ?_))
            exact List.mem_filter.mpr ⟨hxR, decide_eq_true hxz⟩

theorem kahnAux_nodup {edges : List (String × String)} :
    ∀ {fuel : Nat} {R ord : List String}, R.Nodup → kahnAux edges fuel R = some ord →
      ord.Nodup := by
  intro fuel
  induction fuel with
  | zero =>
    intro R ord hR h
    unfold kahnAux at h
    split at h
    · injection h with h'
      subst h'
      exact List.nodup_nil
    · exact absurd h (by simp)
  | succ f ih =>
    intro R ord hR h
    unfold kahnAux at h
    split at h
    · injection h with h'
      subst h'
      exact List.nodup_nil
    · simp only [] at h
      split at h
      · exact absurd h (by simp)
      · obtain ⟨rest, hrest, rfl⟩ := Option.map_eq_some'.mp h
        refine List.nodup_append.mpr ⟨hR.filter _, ih (hR.filter _) hrest, ?_⟩
        intro x hxz hxr
        have hx2 := List.mem_filter.mp ((kahnAux_mem hrest x).mp hxr)
        have : x ∉ R.filter (noIncoming edges R) := of_decide_eq_true hx2.2
        exact this hxz

theorem kahnAux_edge_split {edges : List (String × String)} {u v : String}
    (huv : (u, v) ∈ edges) :
    ∀ {fuel : Nat} {R ord : List String}, kahnAux edges fuel R = some ord →
      u ∈ R → v ∈ R → ∃ l1 l2, ord = l1 ++ l2 ∧ u ∈ l1 ∧ v ∈ l2 := by
  intro fuel
  induction fuel with
  | zero =>
    intro R ord h hu _
    unfold kahnAux at h
    split at h
    · rename_i hemp
      rw [List.isEmpty_iff] at hemp
      subst hemp
      simp at hu
    · exact absurd h (by simp)
  | succ f ih =>
    intro R ord h hu hv
    unfold kahnAux at h
    split at h
    · rename_i hemp
      rw [List.isEmpty_iff] at hemp
      subst hemp
      simp at hu
    · simp only [] at h
      split at h
      · exact absurd h (by simp)
      · obtain ⟨rest, hrest, rfl⟩ := Option.map_eq_some'.mp h
        have hvz : v ∉ R.filter (noIncoming edges R) := by
          intro hvzz
          have hni := (List.mem_filter.mp hvzz).2
          simp only [noIncoming, Bool.not_eq_true', List.any_eq_false,
            decide_eq_true_eq] at hni
          exact (hni (u, v) huv) ⟨rfl, hu⟩
        have hvR2 : v ∈ R.filter (fun x => x ∉ R.filter (noIncoming edges R)) :=
          List.mem_filter.mpr ⟨hv, decide_eq_true hvz⟩
        by_cases huz : u ∈ R.filter (noIncoming edges R)
        · exact ⟨R.filter (noIncoming edges R), rest, rfl, huz,
            (kahnAux_mem hrest v).mpr hvR2⟩
        · have huR2 : u ∈ R.filter (fun x => x ∉ R.filter (noIncoming edges R)) :=
            List.mem_filter.mpr ⟨hu, decide_eq_true huz⟩
          obtain ⟨l1, l2, rfl, hul, hvl⟩ := ih hrest huR2 hvR2
          exact ⟨R.filter (noIncoming edges R) ++ l1, l2, by simp,
            List.mem_append.mpr (Or.inr hul), hvl⟩

theorem prefix_of_eq_append {u : String} :
    ∀ (c t1 t2 d : List String),
      t1 ++ u :: t2 = c ++ d → u ∉ c → ∃ c2, t1 = c ++ c2 := by
  intro c
  induction c with
  | nil =>
    intro t1 _ _ _ _
    exact ⟨t1, rfl⟩
  | cons x c' ih =>
    intro t1 t2 d heq hu
    cases t1 with
    | nil =>
      simp only [List.nil_append, List.cons_append, List.cons.injEq] at heq
      exact absurd (heq.1 ▸ List.mem_cons_self x c') hu
    | cons y t1' =>
      simp only [List.cons_append, List.cons.injEq] at heq
      obtain ⟨rfl, heq2⟩ := heq
      obtain ⟨c2, hc2⟩ := ih t1' t2 d heq2 (fun hm => hu (List.mem_cons_of_mem _ hm))
      exact ⟨c2, by simp [hc2]⟩

theorem before_reverse {ord : List String} {u v : String} (hnd : ord.Nodup)
    (l1 l2 : List String) (hsp : ord = l1 ++ l2) (hu : u ∈ l1) (hv : v ∈ l2) :
    ∀ t1 t2, ord.reverse = t1 ++ u :: t2 → v ∈ t1 := by
  subst hsp
  intro t1 t2 heq
  rw [List.reverse_append] at heq
  have hul2 : u ∉ l2.reverse := by
    rw [List.mem_reverse]
    exact fun hu2 => (List.disjoint_of_nodup_append hnd) hu hu2
  obtain ⟨c2, hc2⟩ := prefix_of_eq_append l2.reverse t1 t2 l1.reverse heq.symm hul2
  rw [hc2]
  exact List.mem_append.mpr (Or.inl (List.mem_reverse.mpr hv))

theorem dependencies_cycle_empty_iff {es : ParamsValuesSet} {g : DepGraph}
    (hg : es.dependencies_graph = .ok g) :
    (es.dependencies_cycle = .ok [] ↔ ¬ g.HasCycle) := by
  cases hfc : findCycleEdges g with
  | some ces =>
    obtain ⟨hcyc, hne⟩ := findCycleEdges_sound hfc
    simp only [ParamsValuesSet.dependencies_cycle, hg, hfc]
    constructor
    · intro h
      simp only [Except.ok.injEq] at h
      exact absurd (List.map_eq_nil_iff.mp h) hne
    · intro h
      exact absurd hcyc h
  | none =>
    simp only [ParamsValuesSet.dependencies_cycle, hg, hfc]
    constructor
    · intro _ hcyc
      have := findCycleEdges_complete hcyc
      rw [hfc] at this
      simp at this
    · intro _
      trivial

/-- Stand-in for the opaque sympy numeric evaluator in concrete
scenario instances whose expressions are constants or simple lookups. -/
def trivEvalf : String → List (String × Value) → Value := fun _ _ => Value.num 0

/-- Catalog of four independent float parameters, for concrete
scenario instances. -/
def catABCD : ImpactModelParams := ⟨[
  ⟨"a", .float, .num 0, [], some 0, some 100⟩,
  ⟨"b", .float, .num 0, [], some 0, some 100⟩,
  ⟨"c", .float, .num 0, [], some 0, some 100⟩,
  ⟨"d", .float, .num 0, [], some 0, some 100⟩]⟩

/-- Expression set in which the parameters a and b reference each
other (a mutual dependency cycle). -/
def mutualSet : ParamsValuesSet :=
  ⟨[("a", .floatExpr "b"), ("b", .floatExpr "a")], catABCD⟩

/-- Expression set of a single constant expression (acyclic). -/
def singleSet : ParamsValuesSet := ⟨[("a", .floatConst 1)], catABCD⟩

/-- C2: for every Expression Set whose dependency graph builds,
`dependencies_cycle()` returns the empty list if and only if the
derived dependency graph is acyclic; and for the concrete set in which
the parameters a and b reference each other, the returned list contains
both a and b. -/
theorem c2_dependencies_cycle_iff_acyclic :
    (∀ (es : ParamsValuesSet) (g : DepGraph), es.dependencies_graph = .ok g →
      (es.dependencies_cycle = .ok [] ↔ ¬ g.HasCycle)) ∧
    (∃ cyc, mutualSet.dependencies_cycle = .ok cyc ∧ "a" ∈ cyc ∧ "b" ∈ cyc) := by
  refine ⟨fun es g hg => dependencies_cycle_empty_iff hg, ⟨["a", "b"], ?_, ?_, ?_⟩⟩
  · rfl
  · simp
  · simp

/-- Witness for C2: the universal half applied at a concrete acyclic
instance, with its hypotheses discharged by computation. -/
theorem c2_witness : ¬ DepGraph.HasCycle ⟨[]⟩ :=
  (c2_dependencies_cycle_iff_acyclic.1 singleSet ⟨[]⟩ rfl).mp rfl

/-- C10: the Grammar Validator accepts the empty string, whatever the
function allow-list: the token loop never runs, the parenthesis balance
stays zero, and no function names are extracted. -/
theorem c10_validate_expr_empty_string :
    ∀ (allowed : List String), validate_expr allowed "" = true := by
  intro allowed
  rfl

/-- C6 as stated is false: the verdicts on "3-2" and "3 - 2" differ. -/
theorem c6_counterexample : validate_expr [] "3-2" ≠ validate_expr [] "3 - 2" := by
  decide

/-- C6 amended: a whitespace token is discarded without touching the
predecessor state or the parenthesis balance, but inserting or removing
whitespace can still change how the adjacent characters tokenize and
hence the verdict: "3-2" is rejected (its "-2" lexes as a negative
number literal directly following a number) while "3 - 2" is
accepted. -/
theorem c6_amended_whitespace_discarded_but_verdicts_differ :
    (∀ (fuel : Nat) (cs : List Char) (prev : Option TokTy) (np : Int) (n : Nat),
      lexOne cs = some (.ws, n) →
      validateLoop (fuel + 1) cs prev np = validateLoop fuel (cs.drop n) prev np) ∧
    validate_expr [] "3-2" = false ∧ validate_expr [] "3 - 2" = true := by
  refine ⟨?_, by decide, by decide⟩
  intro fuel cs prev np n h
  cases cs with
  | nil =>
    rw [show lexOne ([] : List Char) = none from rfl] at h
    exact Option.noConfusion h
  | cons c t =>
    conv_lhs => rw [validateLoop]
    rw [h]
    simp

/-- Witness for C6's amended theorem at a concrete whitespace token. -/
theorem c6_amended_witness :
    validateLoop 2 " x".toList none 0 = validateLoop 1 (" x".toList.drop 1) none 0 :=
  c6_amended_whitespace_discarded_but_verdicts_differ.1 1 " x".toList none 0 1 (by decide)

theorem raw_version_ne_null : ∀ (e : ParamExpr), e.raw_version ≠ .null := by
  intro e
  cases e <;> simp [ParamExpr.raw_version]

theorem rawOptions_keys : ∀ (ps : PEOptions), (rawOptions ps).keys = ps.keys
  | .nil => rfl
  | .cons o e rest => by
    rw [rawOptions, RawOptions.keys, PEOptions.keys, rawOptions_keys rest]

theorem rawOptions_nullKeys : ∀ (ps : PEOptions), (rawOptions ps).nullKeys = []
  | .nil => rfl
  | .cons o e rest => by
    rw [rawOptions]
    cases he : e.raw_version with
    | null => exact absurd he (raw_version_ne_null e)
    | num q => exact rawOptions_nullKeys rest
    | str s => exact rawOptions_nullKeys rest
    | dict en => exact rawOptions_nullKeys rest

theorem parseOptions_keys {allowed : List String} {param : String} {cat : ImpactModelParams} :
    ∀ (opts : RawOptions) (ps : PEOptions),
      parseOptions allowed opts param cat = .ok ps → ps.keys = opts.keys
  | .nil, ps, h => by
    rw [parseOptions] at h
    injection h with h'
    subst h'
    rfl
  | .cons o e rest, ps, h => by
    rw [parseOptions] at h
    cases hp : ParamExpr.parse allowed e param cat with
    | error f =>
      simp only [hp] at h
      exact Except.noConfusion h
    | ok pe =>
      simp only [hp] at h
      cases hpr : parseOptions allowed rest param cat with
      | error f =>
        simp only [hpr] at h
        exact Except.noConfusion h
      | ok ps2 =>
        simp only [hpr] at h
        injection h with h'
        subst h'
        rw [PEOptions.keys, RawOptions.keys, parseOptions_keys rest ps2 hpr]

mutual

theorem parse_roundtrip (allowed : List String) :
    ∀ (raw : RawExpr) (param : String) (cat : ImpactModelParams) (e : ParamExpr),
      ParamExpr.parse allowed raw param cat = .ok e →
      ParamExpr.parse allowed e.raw_version param cat = .ok e
  | .num q, param, cat, e, h => by
    have hrv : e.raw_version = .num q := by
      rw [ParamExpr.parse] at h
      injection h with h'
      subst h'
      rfl
    rw [hrv]
    exact h
  | .null, param, cat, e, h => by
    rw [ParamExpr.parse] at h
    exact Except.noConfusion h
  | .str s, param, cat, e, h => by
    have hrv : e.raw_version = .str s := by
      rw [ParamExpr.parse] at h
      cases hget : cat.get? param with
      | none =>
        simp only [hget] at h
        exact Except.noConfusion h
      | some p =>
        simp only [hget] at h
        cases hpt : p.ptype with
        | enum =>
          simp only [hpt] at h
          injection h with h'
          subst h'
          rfl
        | float =>
          simp only [hpt] at h
          split at h
          · split at h
            · exact Except.noConfusion h
            · injection h with h'
              subst h'
              rfl
          · exact Except.noConfusion h
    rw [hrv]
    exact h
  | .dict entries, param, cat, e, h => by
    cases entries with
    | nil =>
      simp only [ParamExpr.parse] at h
      exact Except.noConfusion h
    | cons dep opts rest =>
      cases rest with
      | cons d2 o2 r2 =>
        simp only [ParamExpr.parse] at h
        exact Except.noConfusion h
      | nil =>
        simp only [ParamExpr.parse] at h
        split at h
        case isFalse => exact Except.noConfusion h
        case isTrue hdep =>
        cases hget : cat.get? dep with
        | none =>
          simp only [hget] at h
          exact Except.noConfusion h
        | some pd =>
          simp only [hget] at h
          split at h
          case isFalse => exact Except.noConfusion h
          case isTrue henum =>
          split at h
          case isTrue => exact Except.noConfusion h
          case isFalse hmiss =>
          split at h
          case isTrue => exact Except.noConfusion h
          case isFalse hextra =>
          split at h
          case isTrue => exact Except.noConfusion h
          case isFalse hnone =>
          cases hpo : parseOptions allowed opts param cat with
          | error f =>
            simp only [hpo] at h
            exact Except.noConfusion h
          | ok ps =>
            simp only [hpo] at h
            injection h with h'
            subst h'
            simp only [ParamExpr.raw_version, ParamExpr.parse, hget]
            rw [if_pos hdep, if_pos henum]
            rw [rawOptions_keys, parseOptions_keys opts ps hpo]
            rw [if_neg hmiss, if_neg hextra]
            rw [rawOptions_nullKeys]
            rw [if_neg (fun hc => hc rfl)]
            rw [parseOptions_roundtrip allowed opts param cat ps hpo]

theorem parseOptions_roundtrip (allowed : List String) :
    ∀ (opts : RawOptions) (param : String) (cat : ImpactModelParams) (ps : PEOptions),
      parseOptions allowed opts param cat = .ok ps →
      parseOptions allowed (rawOptions ps) param cat = .ok ps
  | .nil, param, cat, ps, h => by
    rw [parseOptions] at h
    injection h with h'
    subst h'
    rfl
  | .cons o e rest, param, cat, ps, h => by
    rw [parseOptions] at h
    cases hp : ParamExpr.parse allowed e param cat with
    | error f =>
      simp only [hp] at h
      exact Except.noConfusion h
    | ok pe =>
      simp only [hp] at h
      cases hpr : parseOptions allowed rest param cat with
      | error f =>
        simp only [hpr] at h
        exact Except.noConfusion h
      | ok ps2 =>
        simp only [hpr] at h
        injection h with h'
        subst h'
        rw [rawOptions, parseOptions]
        rw [parse_roundtrip allowed e param cat pe hp]
        rw [parseOptions_roundtrip allowed rest param cat ps2 hpr]

end

/-- Catalog with one bounded float parameter and one enum parameter,
for concrete scenario instances. -/
def catFE : ImpactModelParams := ⟨[
  ⟨"f", .float, .num 0, [], some 0, some 10⟩,
  ⟨"e", .enum, .str "on", ["on", "off"], none, none⟩]⟩

/-- C9: round trip — for every successfully parsed expression, feeding
its `raw_version` back through `ParamExpr.parse` with the same
parameter name and catalog succeeds and yields the structurally
identical expression, whose `evaluate()` therefore agrees with the
original on every dependency assignment, for every numeric evaluator. -/
theorem c9_parse_raw_version_round_trip (allowed : List String) (raw : RawExpr)
    (param : String) (cat : ImpactModelParams) (e : ParamExpr)
    (h : ParamExpr.parse allowed raw param cat = .ok e) :
    ∃ e2, ParamExpr.parse allowed e.raw_version param cat = .ok e2 ∧
      ∀ (evalf : String → List (String × Value) → Value) (deps : List (String × Value)),
        e2.evaluate evalf deps = e.evaluate evalf deps :=
  ⟨e, parse_roundtrip allowed raw param cat e h, fun _ _ => rfl⟩

/-- Witness for C9 at a concrete enum-branch expression. -/
theorem c9_witness :
    ∃ e2, ParamExpr.parse []
        (ParamExpr.enumExpr "e"
          (.cons "on" (.floatConst 7) (.cons "off" (.floatConst 3) .nil))).raw_version
        "f" catFE = .ok e2 ∧
      ∀ (evalf : String → List (String × Value) → Value) (deps : List (String × Value)),
        e2.evaluate evalf deps =
          (ParamExpr.enumExpr "e"
            (.cons "on" (.floatConst 7) (.cons "off" (.floatConst 3) .nil))).evaluate evalf deps :=
  c9_parse_raw_version_round_trip []
    (.dict (.cons "e" (.cons "on" (.num 7) (.cons "off" (.num 3) .nil)) .nil)) "f" catFE
    (ParamExpr.enumExpr "e" (.cons "on" (.floatConst 7) (.cons "off" (.floatConst 3) .nil)))
    rfl

/-- Catalog with one enum parameter p (options a, b, c) and one float
parameter t, for the enum-branch validation instances. -/
def catP : ImpactModelParams := ⟨[
  ⟨"p", .enum, .str "a", ["a", "b", "c"], none, none⟩,
  ⟨"t", .float, .num 0, [], some 0, some 1⟩]⟩

/-- Raw branch mapping with keys a, b, d (missing c, extra d). -/
def optsABD : RawOptions :=
  .cons "a" (.num 1) (.cons "b" (.num 2) (.cons "d" (.num 3) .nil))

/-- Raw branch mapping with keys a, b, c, d (extra d only). -/
def optsABCD : RawOptions :=
  .cons "a" (.num 1) (.cons "b" (.num 2) (.cons "c" (.num 3) (.cons "d" (.num 4) .nil)))

/-- C5 fails as stated: with declared options a, b, c and branch keys
a, b, d — both a missing option and an extra option — the raised error
is a single `enum_expr_options` error whose missing list is the sorted
missing options and whose extra list is hard-coded empty; the extra
options are reported (second conjunct) only when nothing is missing. -/
theorem c5_counterexample :
    ParamExpr.parse [] (.dict (.cons "p" optsABD .nil)) "t" catP =
      .error (.validation [.enumExprOptions ["c"] []]) ∧
    ParamExpr.parse [] (.dict (.cons "p" optsABCD .nil)) "t" catP =
      .error (.validation [.enumExprOptions [] ["d"]]) :=
  ⟨rfl, rfl⟩

/-- C5 amended: `EnumBranch` option validation raises at the first
failing check rather than collecting all failures: whenever some
declared options are missing from the branch keys, the raised error is
a single `enum_expr_options` error reporting the sorted missing
options with an empty extra list, even when undeclared extra options
are also present. -/
theorem c5_amended_missing_options_reported_alone (allowed : List String)
    (dep param : String) (opts : RawOptions) (cat : ImpactModelParams) (pd : ParamDef)
    (hdep : dep ∈ cat.names) (hget : cat.get? dep = some pd) (henum : pd.ptype = .enum)
    (hmiss : sortStr (dedupFirst (pd.options.filter (fun o => o ∉ opts.keys))) ≠ []) :
    ParamExpr.parse allowed (.dict (.cons dep opts .nil)) param cat =
      .error (.validation [.enumExprOptions
        (sortStr (dedupFirst (pd.options.filter (fun o => o ∉ opts.keys)))) []]) := by
  simp only [ParamExpr.parse, hget]
  rw [if_pos hdep, if_pos henum, if_pos hmiss]

/-- Witness for C5's amended theorem at the concrete missing-and-extra
instance. -/
theorem c5_amended_witness :
    ParamExpr.parse [] (.dict (.cons "p" optsABD .nil)) "t" catP =
      .error (.validation [.enumExprOptions
        (sortStr (dedupFirst ((["a", "b", "c"] : List String).filter
          (fun o => o ∉ optsABD.keys)))) []]) :=
  c5_amended_missing_options_reported_alone [] "p" "t" optsABD catP
    ⟨"p", .enum, .str "a", ["a", "b", "c"], none, none⟩ (by decide) rfl rfl (by decide)

/-- Catalog of two bounded float parameters, for concrete batch
instances. -/
def catXY : ImpactModelParams := ⟨[
  ⟨"x", .float, .num 0, [], some 0, some 100⟩,
  ⟨"y", .float, .num 0, [], some 0, some 100⟩]⟩

theorem buildStageAux_countUp_error {allowed : List String}
    {parameters : ImpactModelParams} {lv : List (String × List RawExpr)} :
    ∀ (n a i : Nat) (f : Failure),
      a ≤ i → i < a + n →
      (∀ j, a ≤ j → j < i → ∃ vs s, valuesAt lv j = .ok vs ∧
        ParamsValuesSet.build allowed vs parameters = .ok s) →
      (∃ vs, valuesAt lv i = .ok vs ∧
        ParamsValuesSet.build allowed vs parameters = .error f) →
      buildStageAux allowed parameters lv (countUp a n) = .error f := by
  intro n
  induction n with
  | zero =>
    intro a i f h1 h2 _ _
    omega
  | succ m ih =>
    intro a i f h1 h2 hok hfail
    rw [countUp]
    by_cases hia : i = a
    · subst hia
      obtain ⟨vs, hvs, hbd⟩ := hfail
      simp only [buildStageAux, hvs, hbd]
    · have hlt : a < i := by omega
      obtain ⟨vs, s, hvs, hbd⟩ := hok a le_rfl hlt
      have hrec := ih (a + 1) i f (by omega) (by omega)
        (fun j hj1 hj2 => hok j (by omega) hj2) hfail
      simp only [buildStageAux, hvs, hbd, hrec]

/-- C3 fails as stated: with parse failures at index 0 (parameter x)
and at index 1 (parameter y), the raised error carries only index 0's
failure; index 1's failing build (second conjunct) is not represented
in it (third conjunct). -/
theorem c3_counterexample :
    ImpactModelParamsValues.from_dict [] trivEvalf catXY
      [("x", .list [.str "(", .num 1]), ("y", .list [.num 1, .str "("])] =
      .error (.validation [.targeted "x" .floatExprErr]) ∧
    ParamsValuesSet.build [] [("x", .num 1), ("y", .str "(")] catXY =
      .error (.validation [.targeted "y" .floatExprErr]) ∧
    PErr.targeted "y" .floatExprErr ∉ [PErr.targeted "x" .floatExprErr] := by
  refine ⟨rfl, rfl, ?_⟩
  intro hmem
  simp at hmem

/-- C3 amended: parse failures are aggregated across the parameters of
one batch index by `ParamsValuesSet.build`, but the batch resolver
raises the first failing index's combined error as-is and never reaches
the remaining indices. -/
theorem c3_amended_first_failing_index_raised (allowed : List String)
    (evalf : String → List (String × Value) → Value) (parameters : ImpactModelParams)
    (values : List (String × RawBatch)) (size : Nat) (lv : List (String × List RawExpr))
    (i : Nat) (errs : List PErr)
    (hb : broadcastStage parameters values = .ok (size, lv))
    (hi : i < size)
    (hok : ∀ j, j < i → ∃ vs s, valuesAt lv j = .ok vs ∧
      ParamsValuesSet.build allowed vs parameters = .ok s)
    (hfail : ∃ vs, valuesAt lv i = .ok vs ∧
      ParamsValuesSet.build allowed vs parameters = .error (.validation errs)) :
    ImpactModelParamsValues.from_dict allowed evalf parameters values =
      .error (.validation errs) := by
  have hbuild : buildStage allowed parameters lv size = .error (.validation errs) :=
    buildStageAux_countUp_error size 0 i _ (by omega) (by omega)
      (fun j _ hj2 => hok j hj2) hfail
  simp only [ImpactModelParamsValues.from_dict, hb, hbuild]

/-- Witness for C3's amended theorem at the concrete two-index batch. -/
theorem c3_amended_witness :
    ImpactModelParamsValues.from_dict [] trivEvalf catXY
      [("x", .list [.str "(", .num 1]), ("y", .list [.num 1, .str "("])] =
      .error (.validation [.targeted "x" .floatExprErr]) :=
  c3_amended_first_failing_index_raised [] trivEvalf catXY
    [("x", .list [.str "(", .num 1]), ("y", .list [.num 1, .str "("])] 2
    [("x", [.str "(", .num 1]), ("y", [.num 1, .str "("])] 0 [.targeted "x" .floatExprErr]
    rfl (by omega) (fun j hj => absurd hj (by omega))
    ⟨[("x", .str "("), ("y", .num 1)], rfl, rfl⟩

theorem cycleStage_first_cycle :
    ∀ (sets : List ParamsValuesSet) (i : Nat) (s : ParamsValuesSet) (cyc : List String),
      sets.get? i = some s →
      (∀ j s2, j < i → sets.get? j = some s2 → s2.dependencies_cycle = .ok []) →
      s.dependencies_cycle = .ok cyc → cyc ≠ [] →
      cycleStage sets = .error (.validation [.depsCycle (sortStr cyc)]) := by
  intro sets
  induction sets with
  | nil =>
    intro i s cyc hget _ _ _
    simp at hget
  | cons s0 rest ih =>
    intro i s cyc hget hprev hcyc hne
    cases i with
    | zero =>
      simp only [List.get?_cons_zero, Option.some.injEq] at hget
      subst hget
      cases cyc with
      | nil => exact absurd rfl hne
      | cons c cs => simp only [cycleStage, hcyc]
    | succ i2 =>
      have h0 : s0.dependencies_cycle = .ok [] := hprev 0 s0 (by omega) rfl
      simp only [cycleStage, h0]
      exact ih i2 s cyc (by simpa using hget)
        (fun j s2 hj hg => hprev (j + 1) s2 (by omega) (by simpa using hg)) hcyc hne

/-- Batch values with a dependency cycle between a and b at index 0 and
between c and d at index 1. -/
def c4values : List (String × RawBatch) :=
  [("a", .list [.str "b", .num 1]), ("b", .list [.str "a", .num 2]),
   ("c", .list [.num 1, .str "d"]), ("d", .list [.num 2, .str "c"])]

/-- Expression set built for index 0 of `c4values`. -/
def c4set0 : ParamsValuesSet :=
  ⟨[("a", .floatExpr "b"), ("b", .floatExpr "a"),
    ("c", .floatConst 1), ("d", .floatConst 2)], catABCD⟩

/-- Expression set built for index 1 of `c4values`. -/
def c4set1 : ParamsValuesSet :=
  ⟨[("a", .floatConst 1), ("b", .floatConst 2),
    ("c", .floatExpr "d"), ("d", .floatExpr "c")], catABCD⟩

/-- C4 fails as stated: with cycles at index 0 (a, b) and at index 1
(c, d), the resolver raises index 0's cycle alone; index 1's set
(second and third conjuncts) has the unreported cycle c, d. -/
theorem c4_counterexample :
    ImpactModelParamsValues.from_dict [] trivEvalf catABCD c4values =
      .error (.validation [.depsCycle ["a", "b"]]) ∧
    ParamsValuesSet.build [] [("a", .num 1), ("b", .num 2), ("c", .str "d"), ("d", .str "c")]
      catABCD = .ok c4set1 ∧
    c4set1.dependencies_cycle = .ok ["c", "d"] :=
  ⟨rfl, rfl, rfl⟩

/-- C4 amended: the cycle check aborts at the first index whose
expression set has a dependency cycle, raising one `dependencies_cycle`
error naming that index's sorted cyclic parameters; later indices are
not checked. -/
theorem c4_amended_first_cycle_aborts (allowed : List String)
    (evalf : String → List (String × Value) → Value) (parameters : ImpactModelParams)
    (values : List (String × RawBatch)) (size : Nat) (lv : List (String × List RawExpr))
    (sets : List ParamsValuesSet) (i : Nat) (s : ParamsValuesSet) (cyc : List String)
    (hb : broadcastStage parameters values = .ok (size, lv))
    (hbuild : buildStage allowed parameters lv size = .ok sets)
    (hget : sets.get? i = some s)
    (hprev : ∀ j s2, j < i → sets.get? j = some s2 → s2.dependencies_cycle = .ok [])
    (hcyc : s.dependencies_cycle = .ok cyc) (hne : cyc ≠ []) :
    ImpactModelParamsValues.from_dict allowed evalf parameters values =
      .error (.validation [.depsCycle (sortStr cyc)]) := by
  simp only [ImpactModelParamsValues.from_dict, hb, hbuild,
    cycleStage_first_cycle sets i s cyc hget hprev hcyc hne]

/-- Witness for C4's amended theorem at the concrete two-cycle batch. -/
theorem c4_amended_witness :
    ImpactModelParamsValues.from_dict [] trivEvalf catABCD c4values =
      .error (.validation [.depsCycle (sortStr ["a", "b"])]) :=
  c4_amended_first_cycle_aborts [] trivEvalf catABCD c4values 2
    [("a", [.str "b", .num 1]), ("b", [.str "a", .num 2]),
     ("c", [.num 1, .str "d"]), ("d", [.num 2, .str "c"])]
    [c4set0, c4set1] 0 c4set0 ["a", "b"]
    rfl rfl rfl (fun j s2 hj _ => absurd hj (by omega)) rfl (by simp)

theorem foldl_max_all_eq (L : Nat) :
    ∀ (ns : List Nat) (a : Nat), (∀ x ∈ ns, x = L) → ns ≠ [] → ns.foldl max a = max a L := by
  intro ns
  induction ns with
  | nil =>
    intro a _ h
    exact absurd rfl h
  | cons n rest ih =>
    intro a hall _
    have hn : n = L := hall n (List.mem_cons_self n rest)
    subst hn
    cases rest with
    | nil => rw [List.foldl_cons, List.foldl_nil]
    | cons m r =>
      rw [List.foldl_cons, ih (max a n) (fun x hx => hall x (List.mem_cons_of_mem n hx)) (by simp),
        Nat.max_assoc, Nat.max_self]

/-- C7: with every supplied sequence of length L > 0, broadcasting
succeeds with batch size L, keeps sequences, replicates scalars to
length L, and every resulting row has length L; with no sequences the
batch size is 1; y broadcasts to three 5s beside x = [1,2,3]; and
mismatched lengths [1,2] vs [1,2,3] raise the size-mismatch error. -/
theorem c7_broadcast_and_batch_size (parameters : ImpactModelParams)
    (values : List (String × RawBatch)) (L : Nat) (hL : 0 < L)
    (hex : ∃ p ∈ values, ∃ l, p.2 = RawBatch.list l)
    (hall : ∀ p ∈ values, ∀ l, p.2 = RawBatch.list l → l.length = L) :
    (∃ lv, broadcastStage parameters values = .ok (L, lv) ∧
      (∀ n e, (n, RawBatch.scalar e) ∈ values → (n, List.replicate L e) ∈ lv) ∧
      (∀ n l, (n, RawBatch.list l) ∈ values → (n, l) ∈ lv) ∧
      (∀ n ls, (n, ls) ∈ lv → ls.length = L)) ∧
    (∀ (parameters2 : ImpactModelParams) (values2 : List (String × RawBatch)),
      (∀ p ∈ values2, ∀ l, p.2 ≠ RawBatch.list l) →
      ∃ lv, broadcastStage parameters2 values2 = .ok (1, lv) ∧
        ∀ n ls, (n, ls) ∈ lv → ls.length = 1) ∧
    broadcastStage catXY [("x", .list [.num 1, .num 2, .num 3]), ("y", .scalar (.num 5))] =
      .ok (3, [("x", [.num 1, .num 2, .num 3]), ("y", [.num 5, .num 5, .num 5])]) ∧
    ImpactModelParamsValues.from_dict [] trivEvalf catXY
      [("x", .list [.num 1, .num 2, .num 3]), ("y", .scalar (.num 5))] =
      .ok [("y", [.num 5, .num 5, .num 5]), ("x", [.num 1, .num 2, .num 3])] ∧
    ImpactModelParamsValues.from_dict [] trivEvalf catXY
      [("x", .list [.num 1, .num 2]), ("y", .list [.num 1, .num 2, .num 3])] =
      .error (.validation [.listsSizeMatch]) := by
  refine ⟨?_, ?_, rfl, rfl, rfl⟩
  · have hempties : values.filterMap (fun nv =>
        match nv.2 with
        | RawBatch.list [] => some nv.1
        | _ => none) = [] := by
      rw [List.filterMap_eq_nil_iff]
      intro nv hnv
      cases h2 : nv.2 with
      | scalar e => rfl
      | list l =>
        cases l with
        | nil => exact absurd (hall nv hnv [] h2) (fun h0 => by simp at h0; omega)
        | cons e es => rfl
    have hmem2 : ∀ l ∈ values.filterMap (fun nv =>
        match nv.2 with
        | RawBatch.list l => some l
        | _ => none), l.length = L := by
      intro l hl
      obtain ⟨nv, hnv, hfl⟩ := List.mem_filterMap.mp hl
      cases h2 : nv.2 with
      | scalar e =>
        rw [h2] at hfl
        exact Option.noConfusion hfl
      | list l2 =>
        rw [h2] at hfl
        injection hfl with h3
        rw [← h3]
        exact hall nv hnv l2 h2
    have hne2 : values.filterMap (fun nv =>
        match nv.2 with
        | RawBatch.list l => some l
        | _ => none) ≠ [] := by
      obtain ⟨p0, hp0, l0, hl0⟩ := hex
      intro h0
      have hmem0 : l0 ∈ values.filterMap (fun nv =>
          match nv.2 with
          | RawBatch.list l => some l
          | _ => none) := List.mem_filterMap.mpr ⟨p0, hp0, by rw [hl0]⟩
      rw [h0] at hmem0
      exact absurd hmem0 (List.not_mem_nil l0)
    have h1 : ∀ x ∈ List.map List.length (values.filterMap (fun nv =>
        match nv.2 with
        | RawBatch.list l => some l
        | _ => none)), x = L := by
      intro x hx
      obtain ⟨l, hl, hlen⟩ := List.mem_map.mp hx
      rw [← hlen]
      exact hmem2 l hl
    have h2m : List.map List.length (values.filterMap (fun nv =>
        match nv.2 with
        | RawBatch.list l => some l
        | _ => none)) ≠ [] := by
      intro h0
      rw [List.map_eq_nil_iff] at h0
      exact hne2 h0
    have hfold := (foldl_max_all_eq L _ 0 h1 h2m).trans (Nat.max_eq_right (Nat.zero_le L))
    simp only [broadcastStage, hempties]
    split
    next h =>
      exfalso
      rw [List.any_eq_true] at h
      obtain ⟨l, hl, hdec⟩ := h
      have hne3 := of_decide_eq_true hdec
      obtain ⟨l0, t, hcons⟩ := List.exists_cons_of_ne_nil hne2
      have hl0len : l0.length = L := hmem2 l0 (by rw [hcons]; exact List.mem_cons_self l0 t)
      rw [hcons, List.headD_cons] at hne3
      exact hne3 ((hmem2 l hl).trans hl0len.symm)
    next h =>
      split
      next h2 =>
        exact absurd (by rwa [List.isEmpty_iff] at h2) hne2
      next h2 =>
        rw [hfold]
        refine ⟨_, rfl, ?_, ?_, ?_⟩
        · intro n e hmem
          exact List.mem_map.mpr ⟨(n, RawBatch.scalar e), List.mem_append_left _ hmem, rfl⟩
        · intro n l hmem
          exact List.mem_map.mpr ⟨(n, RawBatch.list l), List.mem_append_left _ hmem, rfl⟩
        · intro n ls hmem
          obtain ⟨nv, hnv, himg⟩ := List.mem_map.mp hmem
          obtain ⟨nm, b⟩ := nv
          cases b with
          | scalar e =>
            injection himg with ha hb
            rw [← hb]
            simp
          | list l =>
            injection himg with ha hb
            rw [← hb]
            rcases List.mem_append.mp hnv with hvmem | hdmem
            · exact hall (nm, RawBatch.list l) hvmem l rfl
            · exfalso
              obtain ⟨p, hp, himg2⟩ := List.mem_map.mp hdmem
              injection himg2 with ha2 hb2
              exact RawBatch.noConfusion hb2
  · intro parameters2 values2 hnol
    have hempt : values2.filterMap (fun nv =>
        match nv.2 with
        | RawBatch.list [] => some nv.1
        | _ => none) = [] := by
      rw [List.filterMap_eq_nil_iff]
      intro nv hnv
      cases h2 : nv.2 with
      | scalar e => rfl
      | list l => exact absurd h2 (hnol nv hnv l)
    have hlst : values2.filterMap (fun nv =>
        match nv.2 with
        | RawBatch.list l => some l
        | _ => none) = [] := by
      rw [List.filterMap_eq_nil_iff]
      intro nv hnv
      cases h2 : nv.2 with
      | scalar e => rfl
      | list l => exact absurd h2 (hnol nv hnv l)
    simp only [broadcastStage, hempt, hlst]
    split
    next h => exact absurd h (by simp)
    next h =>
      rw [if_pos List.isEmpty_nil]
      refine ⟨_, rfl, ?_⟩
      intro n ls hmem
      obtain ⟨nv, hnv, himg⟩ := List.mem_map.mp hmem
      obtain ⟨nm, b⟩ := nv
      cases b with
      | scalar e =>
        injection himg with ha hb
        rw [← hb]
        simp
      | list l =>
        exfalso
        rcases List.mem_append.mp hnv with hvmem | hdmem
        · exact hnol (nm, RawBatch.list l) hvmem l rfl
        · obtain ⟨p, hp, himg2⟩ := List.mem_map.mp hdmem
          injection himg2 with ha2 hb2
          exact RawBatch.noConfusion hb2

/-- Witness for C7 at the concrete batch x = [1,2,3], y = 5. -/
theorem c7_witness :
    ∃ lv, broadcastStage catXY
        [("x", RawBatch.list [.num 1, .num 2, .num 3]), ("y", RawBatch.scalar (.num 5))] =
        .ok (3, lv) ∧ ("y", List.replicate 3 (RawExpr.num 5)) ∈ lv := by
  obtain ⟨⟨lv, heq, hsc, h3, h4⟩, h5⟩ := c7_broadcast_and_batch_size catXY
    [("x", RawBatch.list [.num 1, .num 2, .num 3]), ("y", RawBatch.scalar (.num 5))] 3
    (by omega)
    ⟨("x", RawBatch.list [.num 1, .num 2, .num 3]), List.mem_cons_self _ _,
      [.num 1, .num 2, .num 3], rfl⟩
    (by
      intro p hp l hl
      rcases List.mem_cons.mp hp with h | hp2
      · subst h
        injection hl with h2
        rw [← h2]
        rfl
      · rcases List.mem_cons.mp hp2 with h | h
        · subst h
          exact RawBatch.noConfusion hl
        · exact absurd h (List.not_mem_nil p))
  exact ⟨lv, heq, hsc "y" (RawExpr.num 5)
    (List.mem_cons_of_mem _ (List.mem_cons_self _ _))⟩

/-- C8: a bounded float parameter's numeric value never contributes a
fatal error (only warnings); an enum value outside the declared options
is one fatal error and no warning; per-value results are concatenated
across indices and parameters; the resolver raises the whole collected
error list in one validation error; concretely f = 50 out of [0, 10]
still resolves with one warning, while two invalid enum values are
raised together. -/
theorem c8_float_warns_enum_fatal_collected :
    (∀ (parameters : ImpactModelParams) (sets : List ParamsValuesSet)
        (name : String) (idx : Nat) (q mn mx : ℚ) (pd : ParamDef) (ex : ParamExpr),
      parameters.get? name = some pd → pd.ptype = .float →
      pd.pmin = some mn → pd.pmax = some mx →
      getExpr sets idx name = .ok ex →
      ∃ w, checkOne parameters sets name idx (.num q) = .ok ([], w)) ∧
    (∀ (parameters : ImpactModelParams) (sets : List ParamsValuesSet)
        (name : String) (idx : Nat) (s : String) (pd : ParamDef) (ex : ParamExpr),
      parameters.get? name = some pd → pd.ptype = .enum →
      s ∉ pd.options → getExpr sets idx name = .ok ex →
      ∃ err, checkOne parameters sets name idx (.str s) = .ok ([err], [])) ∧
    (∀ (parameters : ImpactModelParams) (sets : List ParamsValuesSet) (name : String)
        (l1 l2 : List (Nat × Value)) (e1 e2 : List PErr) (w1 w2 : List Warning),
      checkValues parameters sets name l1 = .ok (e1, w1) →
      checkValues parameters sets name l2 = .ok (e2, w2) →
      checkValues parameters sets name (l1 ++ l2) = .ok (e1 ++ e2, w1 ++ w2)) ∧
    (∀ (allowed : List String) (evalf : String → List (String × Value) → Value)
        (parameters : ImpactModelParams) (values : List (String × RawBatch))
        (size : Nat) (lv : List (String × List RawExpr)) (sets : List ParamsValuesSet)
        (final : List (String × List Value)) (errs : List PErr) (warns : List Warning),
      broadcastStage parameters values = .ok (size, lv) →
      buildStage allowed parameters lv size = .ok sets →
      cycleStage sets = .ok () →
      evalStage evalf parameters sets [] = .ok final →
      validateStage parameters sets final = .ok (errs, warns) →
      errs ≠ [] →
      ImpactModelParamsValues.from_dict allowed evalf parameters values =
        .error (.validation errs)) ∧
    (ImpactModelParamsValues.from_dict [] trivEvalf catFE
        [("f", RawBatch.scalar (.num 50)), ("e", RawBatch.scalar (.str "on"))] =
        .ok [("e", [.str "on"]), ("f", [.num 50])] ∧
      validateStage catFE [⟨[("f", .floatConst 50), ("e", .enumConst "on")], catFE⟩]
        [("e", [.str "on"]), ("f", [.num 50])] =
        .ok ([], [.outOfBounds (.num 50) "f"])) ∧
    ImpactModelParamsValues.from_dict [] trivEvalf catFE
      [("f", RawBatch.scalar (.num 5)), ("e", RawBatch.list [.str "bad", .str "worse"])] =
      .error (.validation
        [.valueErr (.str "bad") "e" none, .valueErr (.str "worse") "e" none]) := by
  refine ⟨?_, ?_, ?_, ?_, ⟨rfl, rfl⟩, rfl⟩
  · intro parameters sets name idx q mn mx pd ex hget hft hmn hmx hgx
    simp only [checkOne, hget, hft, hmn, hmx, qOf]
    split
    · simp only [hgx]
      split
      · exact ⟨_, rfl⟩
      · exact ⟨_, rfl⟩
    · exact ⟨_, rfl⟩
  · intro parameters sets name idx s pd ex hget het hnotin hgx
    simp only [checkOne, hget, het]
    rw [if_neg hnotin]
    simp only [hgx]
    split
    · exact ⟨_, rfl⟩
    · exact ⟨_, rfl⟩
  · intro parameters sets name l1
    induction l1 with
    | nil =>
      intro l2 e1 e2 w1 w2 h1 h2
      simp only [checkValues, Except.ok.injEq, Prod.mk.injEq] at h1
      obtain ⟨he, hw⟩ := h1
      subst he
      subst hw
      simpa using h2
    | cons p rest ih =>
      intro l2 e1 e2 w1 w2 h1 h2
      obtain ⟨idx, elem⟩ := p
      cases hco : checkOne parameters sets name idx elem with
      | error f =>
        simp only [checkValues, hco] at h1
        exact Except.noConfusion h1
      | ok ew =>
        obtain ⟨ea, wa⟩ := ew
        cases hcv : checkValues parameters sets name rest with
        | error f =>
          simp only [checkValues, hco, hcv] at h1
          exact Except.noConfusion h1
        | ok ew2 =>
          obtain ⟨eb, wb⟩ := ew2
          simp only [checkValues, hco, hcv, Except.ok.injEq, Prod.mk.injEq] at h1
          obtain ⟨he, hw⟩ := h1
          subst he
          subst hw
          have hrec := ih l2 eb e2 wb w2 hcv h2
          simp only [List.cons_append, checkValues, hco, List.append_eq, hrec]
          rw [List.append_assoc, List.append_assoc]
  · intro allowed evalf parameters values size lv sets final errs warns h1 h2 h3 h4 h5 hne
    cases errs with
    | nil => exact absurd rfl hne
    | cons e es => simp only [ImpactModelParamsValues.from_dict, h1, h2, h3, h4, h5]

/-- Witness for C8 applying the enum branch at a concrete invalid
value. -/
theorem c8_witness :
    ∃ err, checkOne catFE [⟨[("f", .floatConst 5), ("e", .enumConst "bad")], catFE⟩]
      "e" 0 (.str "bad") = .ok ([err], []) :=
  c8_float_warns_enum_fatal_collected.2.1 catFE
    [⟨[("f", .floatConst 5), ("e", .enumConst "bad")], catFE⟩] "e" 0 "bad"
    ⟨"e", .enum, .str "on", ["on", "off"], none, none⟩ (.enumConst "bad")
    rfl rfl (by decide) rfl

theorem dictSet_keys (l : List (String × Value)) (k : String) (v : Value) :
    (dictSet l k v).map (·.1) =
      if l.any (fun kv => kv.1 = k) then l.map (·.1) else l.map (·.1) ++ [k] := by
  unfold dictSet
  by_cases h : l.any (fun kv => kv.1 = k) = true
  · rw [if_pos h, if_pos h, List.map_map]
    refine List.map_congr_left ?_
    intro kv hkv
    by_cases h2 : kv.1 = k
    · simp only [Function.comp_apply, if_pos h2]
      exact h2.symm
    · simp only [Function.comp_apply, if_neg h2]
  · rw [if_neg h, if_neg h, List.map_append]
    rfl

theorem mem_keys_dictSet (l : List (String × Value)) (k : String) (v : Value) (x : String) :
    x ∈ l.map (·.1) ∨ x = k → x ∈ (dictSet l k v).map (·.1) := by
  intro hx
  rw [dictSet_keys]
  by_cases h : l.any (fun kv => kv.1 = k) = true
  · rw [if_pos h]
    rcases hx with hx | rfl
    · exact hx
    · rw [List.any_eq_true] at h
      obtain ⟨kv, hkv, hk⟩ := h
      exact List.mem_map.mpr ⟨kv, hkv, of_decide_eq_true hk⟩
  · rw [if_neg h]
    rcases hx with hx | rfl
    · exact List.mem_append_left _ hx
    · exact List.mem_append_right _ (List.mem_cons_self _ _)

theorem keys_nodup_dictSet (l : List (String × Value)) (k : String) (v : Value)
    (h : (l.map (·.1)).Nodup) : ((dictSet l k v).map (·.1)).Nodup := by
  rw [dictSet_keys]
  by_cases hc : l.any (fun kv => kv.1 = k) = true
  · rw [if_pos hc]
    exact h
  · rw [if_neg hc]
    have hkn : k ∉ l.map (·.1) := by
      intro hkm
      obtain ⟨kv, hkv, hk1⟩ := List.mem_map.mp hkm
      rw [Bool.not_eq_true] at hc
      simp only [List.any_eq_false, decide_eq_true_eq] at hc
      exact hc kv hkv hk1
    refine List.nodup_append.mpr ⟨h, List.nodup_singleton k, ?_⟩
    intro x hx hxk
    rw [List.mem_singleton] at hxk
    subst hxk
    exact hkn hx

theorem foldl_dictSet_keys :
    ∀ (kvs : List (String × Value)) (a : List (String × Value)),
      (∀ x, x ∈ a.map (·.1) →
        x ∈ (kvs.foldl (fun a2 kv => dictSet a2 kv.1 kv.2) a).map (·.1)) ∧
      ((a.map (·.1)).Nodup →
        ((kvs.foldl (fun a2 kv => dictSet a2 kv.1 kv.2) a).map (·.1)).Nodup) := by
  intro kvs
  induction kvs with
  | nil =>
    intro a
    exact ⟨fun x h => h, fun h => h⟩
  | cons kv rest ih =>
    intro a
    refine ⟨?_, ?_⟩
    · intro x hx
      rw [List.foldl_cons]
      exact (ih (dictSet a kv.1 kv.2)).1 x (mem_keys_dictSet a kv.1 kv.2 x (Or.inl hx))
    · intro h
      rw [List.foldl_cons]
      exact (ih (dictSet a kv.1 kv.2)).2 (keys_nodup_dictSet a kv.1 kv.2 h)

theorem evalStep_keys {evalf : String → List (String × Value) → Value} {es : ParamsValuesSet}
    {name : String} {st st2 : List (String × Value)}
    (h : evalStep evalf es name st = .ok st2) :
    (∀ x, x ∈ st.map (·.1) → x ∈ st2.map (·.1)) ∧ name ∈ st2.map (·.1) ∧
      ((st.map (·.1)).Nodup → (st2.map (·.1)).Nodup) := by
  unfold evalStep at h
  cases hfind : (es.expressions.find? (fun ne => ne.1 = name)).map (·.2) with
  | none =>
    simp only [hfind] at h
    exact Except.noConfusion h
  | some expr =>
    simp only [hfind] at h
    cases hev : expr.evaluate evalf (st.filter (fun kv => kv.1 ∈ expr.dependencies)) with
    | error f =>
      simp only [hev] at h
      exact Except.noConfusion h
    | ok v =>
      simp only [hev] at h
      cases hpd : es.parameters.get? name with
      | none =>
        simp only [hpd] at h
        exact Except.noConfusion h
      | some pd =>
        simp only [hpd] at h
        injection h with h2
        subst h2
        by_cases he : pd.ptype = .enum
        · rw [if_pos he]
          refine ⟨?_, ?_, ?_⟩
          · intro x hx
            exact (foldl_dictSet_keys _ _).1 x (mem_keys_dictSet st name v x (Or.inl hx))
          · exact (foldl_dictSet_keys _ _).1 name (mem_keys_dictSet st name v name (Or.inr rfl))
          · intro hnd
            exact (foldl_dictSet_keys _ _).2 (keys_nodup_dictSet st name v hnd)
        · rw [if_neg he]
          exact ⟨fun x hx => mem_keys_dictSet st name v x (Or.inl hx),
            mem_keys_dictSet st name v name (Or.inr rfl),
            keys_nodup_dictSet st name v⟩

theorem evalLoop_append {evalf : String → List (String × Value) → Value}
    {es : ParamsValuesSet} :
    ∀ (t1 t2 : List String) (st vals : List (String × Value)),
      evalLoop evalf es (t1 ++ t2) st = .ok vals →
      ∃ st2, evalLoop evalf es t1 st = .ok st2 ∧ evalLoop evalf es t2 st2 = .ok vals := by
  intro t1
  induction t1 with
  | nil =>
    intro t2 st vals h
    exact ⟨st, rfl, by simpa using h⟩
  | cons n rest ih =>
    intro t2 st vals h
    rw [List.cons_append] at h
    cases hstep : evalStep evalf es n st with
    | error f =>
      simp only [evalLoop, hstep] at h
      exact Except.noConfusion h
    | ok st1 =>
      simp only [evalLoop, hstep] at h
      obtain ⟨st2, h1, h2⟩ := ih t2 st1 vals h
      refine ⟨st2, ?_, h2⟩
      simp only [evalLoop, hstep]
      exact h1

theorem evalLoop_keys {evalf : String → List (String × Value) → Value}
    {es : ParamsValuesSet} :
    ∀ (l : List String) (st vals : List (String × Value)),
      evalLoop evalf es l st = .ok vals →
      (∀ x, x ∈ st.map (·.1) → x ∈ vals.map (·.1)) ∧
      (∀ n ∈ l, n ∈ vals.map (·.1)) ∧
      ((st.map (·.1)).Nodup → (vals.map (·.1)).Nodup) := by
  intro l
  induction l with
  | nil =>
    intro st vals h
    simp only [evalLoop] at h
    injection h with h2
    subst h2
    exact ⟨fun x hx => hx, fun n hn => absurd hn (List.not_mem_nil n), fun h => h⟩
  | cons n rest ih =>
    intro st vals h
    cases hstep : evalStep evalf es n st with
    | error f =>
      simp only [evalLoop, hstep] at h
      exact Except.noConfusion h
    | ok st1 =>
      simp only [evalLoop, hstep] at h
      obtain ⟨hsub, hmem, hnd⟩ := evalStep_keys hstep
      obtain ⟨hsub2, hmem2, hnd2⟩ := ih st1 vals h
      refine ⟨fun x hx => hsub2 x (hsub x hx), ?_, fun hh => hnd2 (hnd hh)⟩
      intro m hm
      rcases List.mem_cons.mp hm with rfl | hm2
      · exact hsub2 m hmem
      · exact hmem2 m hm2

/-- C1: with an acyclic dependency graph, a successful `evaluate` runs
`evalLoop` over a processing order in which, whenever a parameter is
reached, each of its graph dependencies was already processed and its
value already sits in the accumulated state; and every expression key
outside the graph (no dependencies, depended on by no one) appears
exactly once among the result keys. -/
theorem c1_evaluate_after_dependencies (evalf : String → List (String × Value) → Value)
    (es : ParamsValuesSet) (g : DepGraph) (vals : List (String × Value))
    (hg : es.dependencies_graph = .ok g)
    (hacyc : ¬ g.HasCycle)
    (hnodup : (es.expressions.map (·.1)).Nodup)
    (heval : es.evaluate evalf = .ok vals) :
    ∃ ord, evalLoop evalf es ord [] = .ok vals ∧
      (∀ t1 name t2, ord = t1 ++ name :: t2 →
        ∃ st, evalLoop evalf es t1 [] = .ok st ∧
          ∀ dep, (name, dep) ∈ g.edges → dep ∈ t1 ∧ dep ∈ st.map (·.1)) ∧
      (∀ k, k ∈ es.expressions.map (·.1) → k ∉ g.nodes →
        (vals.map (·.1)).count k = 1) := by
  cases hcyc : es.dependencies_cycle with
  | error f =>
    simp only [ParamsValuesSet.evaluate, hcyc] at heval
    exact Except.noConfusion heval
  | ok cyc =>
    cases cyc with
    | cons c cs =>
      simp only [ParamsValuesSet.evaluate, hcyc] at heval
      exact Except.noConfusion heval
    | nil =>
      simp only [ParamsValuesSet.evaluate, hcyc, hg] at heval
      cases hk : kahn g with
      | none =>
        simp only [hk] at heval
        exact Except.noConfusion heval
      | some topo =>
        simp only [hk] at heval
        have hk2 : kahnAux g.edges g.nodes.length g.nodes = some topo := hk
        have htopnd : topo.Nodup := kahnAux_nodup (dedupFirst_nodup _) hk2
        set extras := (es.expressions.map (·.1)).filter (fun k => k ∉ topo) with hextras
        have hordnd : (topo ++ extras).Nodup := by
          refine List.nodup_append.mpr ⟨htopnd, hnodup.filter _, ?_⟩
          intro x hxt hxe
          rw [hextras] at hxe
          have := (List.mem_filter.mp hxe).2
          exact (of_decide_eq_true this) hxt
        refine ⟨(topo ++ extras).reverse, heval, ?_, ?_⟩
        · intro t1 name t2 hsplit
          have heval2 := heval
          rw [hsplit] at heval2
          obtain ⟨st, h1, h2⟩ := evalLoop_append t1 (name :: t2) [] vals heval2
          refine ⟨st, h1, ?_⟩
          intro dep hdep
          have hnm : name ∈ g.nodes := (mem_nodes_of_edge hdep).1
          have hdp : dep ∈ g.nodes := (mem_nodes_of_edge hdep).2
          obtain ⟨l1, l2, hts, hnl1, hdl2⟩ := kahnAux_edge_split hdep hk2 hnm hdp
          have hbef := before_reverse hordnd l1 (l2 ++ extras)
            (by rw [hts, List.append_assoc]) hnl1 (List.mem_append_left _ hdl2)
            t1 t2 hsplit
          exact ⟨hbef, (evalLoop_keys t1 [] st h1).2.1 dep hbef⟩
        · intro k hkexpr hknode
          have hknotopo : k ∉ topo := fun hkt => hknode ((kahnAux_mem hk2 k).mp hkt)
          have hkextras : k ∈ extras := by
            rw [hextras]
            exact List.mem_filter.mpr ⟨hkexpr, decide_eq_true hknotopo⟩
          have hkeys := evalLoop_keys ((topo ++ extras).reverse) [] vals heval
          have hkin : k ∈ vals.map (·.1) :=
            hkeys.2.1 k (List.mem_reverse.mpr (List.mem_append_right _ hkextras))
          have hvnd : (vals.map (·.1)).Nodup := hkeys.2.2 (by simp)
          exact List.count_eq_one_of_mem hvnd hkin

/-- Expression set where a depends on b and b is constant, for the C1
witness. -/
def c1set : ParamsValuesSet := ⟨[("a", .floatExpr "b"), ("b", .floatConst 2)], catABCD⟩

/-- Witness for C1 at the concrete two-parameter set a := b, b := 2. -/
theorem c1_witness :
    ∃ ord, evalLoop trivEvalf c1set ord [] =
        .ok [("b", Value.num 2), ("a", Value.num 0)] ∧
      (∀ t1 name t2, ord = t1 ++ name :: t2 →
        ∃ st, evalLoop trivEvalf c1set t1 [] = .ok st ∧
          ∀ dep, (name, dep) ∈ (DepGraph.mk [("a", "b")]).edges →
            dep ∈ t1 ∧ dep ∈ st.map (·.1)) ∧
      (∀ k, k ∈ c1set.expressions.map (·.1) → k ∉ (DepGraph.mk [("a", "b")]).nodes →
        (([("b", Value.num 2), ("a", Value.num 0)].map (·.1)).count k = 1)) :=
  c1_evaluate_after_dependencies trivEvalf c1set ⟨[("a", "b")]⟩
    [("b", Value.num 2), ("a", Value.num 0)] rfl
    (by
      rintro ⟨l, hch, hlen, hcl⟩
      cases l with
      | nil => simp at hlen
      | cons x l2 =>
        cases l2 with
        | nil => simp at hlen
        | cons y t =>
          obtain ⟨hxy, hch2⟩ := List.chain'_cons.mp hch
          have hxy2 := List.mem_singleton.mp hxy
          injection hxy2 with hx hy
          subst hx
          subst hy
          cases t with
          | nil => exact absurd hcl (by decide)
          | cons z t2 =>
            obtain ⟨hyz, _⟩ := List.chain'_cons.mp hch2
            have hyz2 := List.mem_singleton.mp hyz
            injection hyz2 with h1 h2
            exact absurd h1 (by decide))
    (by decide) rfl
